import Mathlib

/-!
# slago: the bounded event queue, the asynchronous writer and the pattern encoder

A shallow embedding of `async_writer.go`, of the converters and the encoder of
`pattern_encoder.go`, of the fields converter of `slago-api/pattern_encoder.go` and of
`SetLevel` of `binder/salzero/zerolog_logger.go`.

* Go `int` fields (`count`, `takeIndex`, `putIndex`) are unbounded `Int`s: no
  operation below comes near the machine range, and the sign matters for the
  comparisons the code makes.
* A `*bytes.Buffer` is modelled by its unread contents: `Write` appends,
  `Bytes` reads the contents and `Reset` empties it.  `Bytes` returns a slice of
  the storage of the buffer; here `Take` returns the bytes as a value.
* The mutexes and the condition variable are not state of the model: every
  function that holds the queue lock is one atomic step.  A run-time panic
  (index out of range) is `none`, and a `Take` on an empty queue, which waits
  on `notEmpty`, is the outcome `blocked`.
-/

namespace Slago

/-- A Go `[]byte`. -/
abbrev Bytes := List UInt8

/-- A Go `error` value that is not nil. -/
abbrev Error := String

/-- The constant `defaultQueueSize`. -/
def defaultQueueSize : Nat := 256

/-- The struct `blockingQueue`; `locker` and `notEmpty` carry no data. -/
structure blockingQueue where
  items : List Bytes
  count : Int
  takeIndex : Int
  putIndex : Int
deriving DecidableEq, Repr

/-- `NewBlockingQueue(capacity)`: `capacity` fresh empty buffers, all counters zero.
The capacity is the length handed to `make`, which panics on a negative one before
any queue exists, so it is a natural number here. -/
def NewBlockingQueue (capacity : Nat) : blockingQueue :=
  { items := List.replicate capacity [], count := 0, takeIndex := 0, putIndex := 0 }

/-- `q.RemainCapacity()`: `len(q.items) - q.count`. -/
def blockingQueue.RemainCapacity (q : blockingQueue) : Int :=
  (q.items.length : Int) - q.count

/-- The slot access `items[i]`: `none` when the index is out of range. -/
def slot (items : List Bytes) (i : Int) : Option Bytes :=
  if 0 ≤ i ∧ i < (items.length : Int) then items[i.toNat]? else none

/-- `q.Put(item)`: append `item` to the buffer at `putIndex`, advance `putIndex`
(wrapping to 0 at `len(q.items)`), increment `count`.  There is no test for a full
queue.  `none` is the index-out-of-range panic of `q.items[q.putIndex]`. -/
def blockingQueue.Put (q : blockingQueue) (item : Bytes) : Option blockingQueue :=
  match slot q.items q.putIndex with
  | none => none
  | some buf =>
    let items := q.items.set q.putIndex.toNat (buf ++ item)
    let putIndex := q.putIndex + 1
    let putIndex := if putIndex = (items.length : Int) then 0 else putIndex
    some { q with items := items, putIndex := putIndex, count := q.count + 1 }

/-- What a call of `Take` does. -/
inductive TakeResult where
  /-- The caller waits on `notEmpty`: `count == 0`, the queue is as before. -/
  | blocked
  /-- Index out of range in `q.items[q.takeIndex]`. -/
  | panicked
  /-- `Take` returns `data` and leaves the queue `q`. -/
  | returned (data : Bytes) (q : blockingQueue)
deriving DecidableEq, Repr

/-- `q.Take()`: wait while `count == 0`; otherwise read the buffer at `takeIndex`,
advance `takeIndex` (wrapping to 0 at `len(q.items)`), decrement `count`, and return
the buffer's bytes after resetting the buffer. -/
def blockingQueue.Take (q : blockingQueue) : TakeResult :=
  if q.count = 0 then TakeResult.blocked
  else
    match slot q.items q.takeIndex with
    | none => TakeResult.panicked
    | some next =>
      let takeIndex := q.takeIndex + 1
      let takeIndex := if takeIndex = (q.items.length : Int) then 0 else takeIndex
      TakeResult.returned next
        { q with items := q.items.set q.takeIndex.toNat [], takeIndex := takeIndex,
                 count := q.count - 1 }

/-- Modelled from the spec: the interfaces `Writer`, `Filter` and `Encoder` are declared
outside the given sources.  A downstream `Writer` has `Write(bytes) -> (n, error)`, an
optional `Filter` with `Do(bytes) -> bool` ("drop if true") and an optional `Encoder`
with `Encode(bytes) -> (bytes, error)`; `none` is a nil interface value. -/
structure Writer where
  Write : Bytes → Int × Option Error
  Filter : Option (Bytes → Bool)
  Encoder : Option (Bytes → Except Error Bytes)

/-- The struct `asyncWriter`; `locker` carries no data. -/
structure asyncWriter where
  ref : Writer
  queue : blockingQueue
  isStarted : Bool

/-- `NewAsyncWriter(ref)`. -/
def NewAsyncWriter (ref : Writer) : asyncWriter :=
  { ref := ref, queue := NewBlockingQueue defaultQueueSize, isStarted := false }

/-- `w.Start()`: the writer after the call and the number of goroutines the call
launched with `go w.startWorker()`. -/
def asyncWriter.Start (w : asyncWriter) : asyncWriter × Nat :=
  if w.isStarted then (w, 0)
  else ({ w with isStarted := true }, 1)

/-- `w.Write(p)`: the pair `(n, err)` and the writer after the call; `none` is a panic
inside `Put`. -/
def asyncWriter.Write (w : asyncWriter) (p : Bytes) :
    Option ((Int × Option Error) × asyncWriter) :=
  if w.queue.RemainCapacity ≤ 16 then
    some ((0, none), w)
  else
    match w.queue.Put p with
    | none => none
    | some q => some (((p.length : Int), none), { w with queue := q })

/-- A call the worker makes outside the queue. -/
inductive Effect where
  /-- A call `w.ref.Encoder().Encode(p)`. -/
  | encode (p : Bytes)
  /-- A call `w.ref.Write(b)`. -/
  | write (b : Bytes)
  /-- A call `Reportf(format, err)`. -/
  | report (format : String) (err : Error)
deriving DecidableEq, Repr

/-- The body of the loop of `startWorker` after `p := w.queue.Take()`: the calls it
makes, in order. -/
def asyncWriter.deliver (ref : Writer) (p : Bytes) : List Effect :=
  if (match ref.Filter with | none => false | some f => f p) then []
  else
    match ref.Encoder with
    | none =>
      match (ref.Write p).2 with
      | none => [Effect.write p]
      | some err => [Effect.write p, Effect.report "async writer write error: %v" err]
    | some e =>
      match e p with
      | Except.error err =>
        [Effect.encode p, Effect.report "async writer encode error: %v" err]
      | Except.ok encoded =>
        match (ref.Write encoded).2 with
        | none => [Effect.encode p, Effect.write encoded]
        | some err =>
          [Effect.encode p, Effect.write encoded,
            Effect.report "async writer write error: %v" err]

/-- One iteration after another of the loop of `startWorker`, with no producer running
in between: `fuel` bounds the number of iterations looked at.  The result is the writer
where the run stops, the calls made so far, and `true` when the run has stopped in a
`Take` that waits on the empty queue (`false`: the fuel ran out first).  `none` is a
panic inside `Take`. -/
def asyncWriter.startWorker (w : asyncWriter) : Nat → Option (asyncWriter × List Effect × Bool)
  | 0 => some (w, [], false)
  | fuel + 1 =>
    match w.queue.Take with
    | TakeResult.blocked => some (w, [], true)
    | TakeResult.panicked => none
    | TakeResult.returned p q =>
      match asyncWriter.startWorker { w with queue := q } fuel with
      | none => none
      | some (w', effects, waiting) => some (w', asyncWriter.deliver w.ref p ++ effects, waiting)

/-! ## Sequences of queue operations -/

/-- A call on the queue. -/
inductive Op where
  | put (item : Bytes)
  | take
deriving DecidableEq, Repr

/-- Perform one call: the queue after it and what it returned (`Put` returns nothing).
`none` when the call does not return: a panic, or a `Take` that waits. -/
def blockingQueue.step (q : blockingQueue) : Op → Option (blockingQueue × List Bytes)
  | Op.put item =>
    match q.Put item with
    | none => none
    | some q' => some (q', [])
  | Op.take =>
    match q.Take with
    | TakeResult.returned data q' => some (q', [data])
    | _ => none

/-- Perform the calls in order, collecting what the `Take`s returned. -/
def blockingQueue.run (q : blockingQueue) : List Op → Option (blockingQueue × List Bytes)
  | [] => some (q, [])
  | op :: ops =>
    match q.step op with
    | none => none
    | some (q', out) =>
      match q'.run ops with
      | none => none
      | some (q'', outs) => some (q'', out ++ outs)

/-- Every `Put` of the sequence is issued on a queue that is not full
(`RemainCapacity() > 0`), which is what a producer that checks before `Put` ensures. -/
def blockingQueue.putsBelowCapacity (q : blockingQueue) : List Op → Bool
  | [] => true
  | op :: ops =>
    (match op with
     | Op.put _ => decide (0 < q.RemainCapacity)
     | Op.take => true) &&
    (match q.step op with
     | none => true
     | some (q', _) => q'.putsBelowCapacity ops)

/-- The queued payloads, oldest first: the `count` slots starting at `takeIndex`,
wrapping around the ring. -/
def blockingQueue.pending (q : blockingQueue) : List Bytes :=
  (List.range q.count.toNat).map fun k =>
    (q.items[(q.takeIndex.toNat + k) % q.items.length]?).getD []

/-- The payloads handed to `Put` by a sequence of calls, in order. -/
def putItems : List Op → List Bytes
  | [] => []
  | Op.put item :: ops => item :: putItems ops
  | Op.take :: ops => putItems ops

/-- The ring discipline of a queue of `cap` slots whose `takeIndex` is `t` and whose
`count` is `n`: `putIndex` is `count` slots after `takeIndex` around the ring, and every
slot outside the `count` slots starting at `takeIndex` holds an empty buffer. -/
structure Ring (q : blockingQueue) (cap t n : Nat) : Prop where
  len : q.items.length = cap
  take_eq : q.takeIndex = (t : Int)
  take_lt : t < cap
  count_eq : q.count = (n : Int)
  put_eq : q.putIndex = (((t + n) % cap : Nat) : Int)
  free : ∀ i, i < cap → (∀ k, k < n → (t + k) % cap ≠ i) → q.items[i]? = some []

/-! ## The writer, its producers and its worker as one system -/

/-- `Start` called `k` times in a row: the writer at the end and the number of worker
goroutines launched in all. -/
def asyncWriter.startTimes (w : asyncWriter) : Nat → asyncWriter × Nat
  | 0 => (w, 0)
  | k + 1 =>
    let r := w.Start
    let rest := asyncWriter.startTimes r.1 k
    (rest.1, r.2 + rest.2)

/-- The payloads handed to the downstream `Write`, in order. -/
def forwarded : List Effect → List Bytes
  | [] => []
  | Effect.write b :: effects => b :: forwarded effects
  | Effect.encode _ :: effects => forwarded effects
  | Effect.report _ _ :: effects => forwarded effects

/-- An `asyncWriter` together with the threads that use it.  `producer` is the payload of
the call of `Write` that holds the writer lock and has passed the capacity test but has
not called `Put` yet; `worker` is the payload the worker has taken and not yet handed on;
`launched` counts the worker goroutines; `enqueued` and `effects` record, in order, the
payloads handed to `Put` and the calls made by the worker. -/
structure System where
  w : asyncWriter
  producer : Option Bytes
  worker : Option Bytes
  launched : Nat
  enqueued : List Bytes
  effects : List Effect

/-- The atomic steps of the threads: each is the part of a function that runs under one
holding of the queue lock (or touches no shared state). -/
inductive Event where
  /-- A call of `Start`. -/
  | start
  /-- A producer enters `Write(p)` and evaluates `RemainCapacity() <= 16`. -/
  | enter (p : Bytes)
  /-- The producer inside `Write` calls `Put` and returns. -/
  | put
  /-- The worker calls `Take`. -/
  | take
  /-- The worker runs the rest of the iteration on the payload it took. -/
  | forward
deriving DecidableEq, Repr

/-- The system right after `NewAsyncWriter(ref)`. -/
def System.init (ref : Writer) : System :=
  { w := NewAsyncWriter ref, producer := none, worker := none, launched := 0,
    enqueued := [], effects := [] }

/-- One atomic step.  A step that is not enabled (a second producer while the writer lock
is held, a `Take` without a worker or on an empty queue) leaves the system as it is;
`none` is a panic. -/
def System.step (s : System) : Event → Option System
  | Event.start =>
    some { s with w := s.w.Start.1, launched := s.launched + s.w.Start.2 }
  | Event.enter p =>
    match s.producer with
    | some _ => some s
    | none =>
      if s.w.queue.RemainCapacity ≤ 16 then some s
      else some { s with producer := some p }
  | Event.put =>
    match s.producer with
    | none => some s
    | some p =>
      match s.w.queue.Put p with
      | none => none
      | some q =>
        some { s with w := { s.w with queue := q }, producer := none,
                      enqueued := s.enqueued ++ [p] }
  | Event.take =>
    if s.launched = 0 ∨ s.worker.isSome then some s
    else
      match s.w.queue.Take with
      | TakeResult.blocked => some s
      | TakeResult.panicked => none
      | TakeResult.returned data q =>
        some { s with w := { s.w with queue := q }, worker := some data }
  | Event.forward =>
    match s.worker with
    | none => some s
    | some p =>
      some { s with worker := none, effects := s.effects ++ asyncWriter.deliver s.w.ref p }

/-- The steps of an interleaving, in order. -/
def System.run (s : System) : List Event → Option System
  | [] => some s
  | e :: events =>
    match s.step e with
    | none => none
    | some s' => s'.run events

/-- What the proof of the delivery order keeps: the ring discipline of the queue with at
most 240 payloads queued (fewer while a producer is between test and `Put`), and, when
the downstream writer has neither filter nor encoder, the payloads handed to `Put` being
those forwarded, then the one in the hands of the worker, then the queued ones. -/
structure System.Inv (s : System) (ref : Writer) (t n : Nat) : Prop where
  ring : Ring s.w.queue 256 t n
  bound : n ≤ 240
  room : s.producer.isSome = true → n < 240
  ref_eq : s.w.ref = ref
  order : ref.Filter = none → ref.Encoder = none →
    forwarded s.effects ++ s.worker.toList ++ s.w.queue.pending = s.enqueued

/-- A downstream writer with no filter and no encoder that accepts everything. -/
def sink : Writer :=
  { Write := fun b => ((b.length : Int), none), Filter := none, Encoder := none }

/-- The queue of capacity 256 after 245 `Put`s of the payload `[7]`. -/
def queue245 : blockingQueue :=
  { items := List.replicate 245 [7] ++ List.replicate 11 [], count := 245, takeIndex := 0,
    putIndex := 245 }

/-- A downstream writer whose filter drops the payloads starting with 0, whose encoder
fails on the payloads starting with 9 and otherwise appends a newline, and whose `Write`
fails on a lone newline. -/
def picky : Writer :=
  { Write := fun b => if b = [10] then (0, some "short write") else ((b.length : Int), none),
    Filter := some fun b => b.head? == some 0,
    Encoder := some fun b =>
      if b.head? = some 9 then Except.error "bad payload" else Except.ok (b ++ [10]) }

/-! ## The pattern encoder (`pattern_encoder.go`)

Go strings and byte slices are both `Bytes`.  A converter that panics gives `none`.
The scratch buffer of a `colorConverter` is created empty and reset before `Convert`
returns, and nothing else writes it, so it is a local value of `Convert` here. -/

/-- The bytes of a Go string literal of ASCII characters. -/
def str (s : String) : Bytes :=
  s.toList.map fun c => c.toNat.toUInt8

/-- `strconv.Itoa(n)`: the decimal digits of `n`, after a minus sign when `n` is negative. -/
def Itoa (n : Int) : Bytes :=
  if n < 0 then 45 :: (Nat.toDigits 10 n.natAbs).map fun c => c.toNat.toUInt8
  else (Nat.toDigits 10 n.toNat).map fun c => c.toNat.toUInt8

/-- `(*bytes.Buffer).Truncate(n)` on a buffer with contents `buf`: all but the first `n`
bytes are discarded; it panics when `n` is negative or greater than the length. -/
def Truncate (buf : Bytes) (n : Int) : Option Bytes :=
  if n < 0 ∨ (buf.length : Int) < n then none else some (buf.take n.toNat)

/-- Modelled from the spec: the type `Level` is declared outside the given sources.  It is
an integer type with the seven named severities the tables of the sources use; `other`
stands for a value with no name. -/
inductive Level where
  | TraceLevel
  | DebugLevel
  | InfoLevel
  | WarnLevel
  | ErrorLevel
  | FatalLevel
  | PanicLevel
  | other (n : Int)
deriving DecidableEq, Repr

/-- Modelled from the spec: the type `LogEvent` is declared outside the given sources.  An
event is what its accessors return: `LevelInt()`, the level text `Level()`, `Message()`,
`Logger()`, the fields in the order `Fields(callback)` visits them (key, value, isString),
and the stored timestamp `rfc3339Nano`. -/
structure LogEvent where
  LevelInt : Level
  Level : Bytes
  Message : Bytes
  Logger : Bytes
  Fields : List (Bytes × Bytes × Bool)
  rfc3339Nano : Bytes
deriving DecidableEq, Repr

/-- The declarations `pattern_encoder.go` uses that are outside the given sources, taken
as parameters: the sixteen colour constants, `TimestampFormat`, and the function
`convertFormat(dst, value, from, to)`, which returns the new buffer contents and an
error. -/
structure Env where
  colorBlack : Int
  colorRed : Int
  colorGreen : Int
  colorYellow : Int
  colorBlue : Int
  colorMagenta : Int
  colorCyan : Int
  colorWhite : Int
  colorBrightBlack : Int
  colorBrightRed : Int
  colorBrightGreen : Int
  colorBrightYellow : Int
  colorBrightBlue : Int
  colorBrightMagenta : Int
  colorBrightCyan : Int
  colorBrightWhite : Int
  TimestampFormat : Bytes
  convertFormat : Bytes → Bytes → Bytes → Bytes → Bytes × Option Error

/-- The map `colorMap`, as the lookup `colorMap[name]`: `none` when the key is absent. -/
def colorMap (env : Env) (name : Bytes) : Option Int :=
  if name = str "black" then some env.colorBlack
  else if name = str "red" then some env.colorRed
  else if name = str "green" then some env.colorGreen
  else if name = str "yellow" then some env.colorYellow
  else if name = str "blue" then some env.colorBlue
  else if name = str "magenta" then some env.colorMagenta
  else if name = str "cyan" then some env.colorCyan
  else if name = str "white" then some env.colorWhite
  else if name = str "blackbr" then some env.colorBrightBlack
  else if name = str "redbr" then some env.colorBrightRed
  else if name = str "greenbr" then some env.colorBrightGreen
  else if name = str "yellowbr" then some env.colorBrightYellow
  else if name = str "bluebr" then some env.colorBrightBlue
  else if name = str "magentabr" then some env.colorBrightMagenta
  else if name = str "cyanbr" then some env.colorBrightCyan
  else if name = str "whitebr" then some env.colorBrightWhite
  else none

/-- The map `levelColorMap`, as the lookup `levelColorMap[level]`. -/
def levelColorMap (env : Env) : Level → Option Int
  | Level.TraceLevel => some env.colorWhite
  | Level.DebugLevel => some env.colorBlue
  | Level.InfoLevel => some env.colorGreen
  | Level.WarnLevel => some env.colorYellow
  | Level.ErrorLevel => some env.colorRed
  | Level.FatalLevel => some env.colorRed
  | Level.PanicLevel => some env.colorRed
  | Level.other _ => none

/-- The linked converters the compiler builds: every converter holds its `next` (`nil` at
the end of a chain); a `colorConverter` and a `logDateConverter` hold a `child` chain.
Modelled from the spec: the literal converter, which is declared outside the given
sources, "writes its stored text verbatim". -/
inductive Converter where
  | nil
  | literal (text : Bytes) (next : Converter)
  | color (opts : List Bytes) (child : Converter) (next : Converter)
  | level (next : Converter)
  | date (opt : Bytes) (child : Converter) (next : Converter)
  | logger (opt : Int) (next : Converter)
  | message (next : Converter)
  | fields (next : Converter)
deriving DecidableEq, Repr

/-- `cc.writeColor(color)` on the buffer contents `buf`: `ESC [`, the number, `m`. -/
def writeColor (color : Int) (buf : Bytes) : Bytes :=
  buf ++ [27, 91] ++ Itoa color ++ [109]

/-- `cc.writeColorEnd()` on the buffer contents `buf`: `ESC [ 0 m`. -/
def writeColorEnd (buf : Bytes) : Bytes :=
  buf ++ [27, 91, 48, 109]

/-- `levelConverter.Convert(origin, buf)`; `origin` is `none` when it is not a
`*LogEvent`. -/
def levelConverter.Convert (origin : Option LogEvent) (buf : Bytes) : Option Bytes :=
  match origin with
  | none => some buf
  | some e => some (buf ++ e.Level)

/-- `logDateConverter.AttachOptions(opts)` on a converter whose pattern is `opt`: the
pattern afterwards. -/
def logDateConverter.AttachOptions (opt : Bytes) (opts : List Bytes) : Bytes :=
  match opts with
  | [] => opt
  | first :: _ => if first.length ≠ 0 then first else opt

/-- `logDateConverter.Convert(origin, buf)` of a converter whose pattern is `opt`: the
buffer is replaced by what `convertFormat` returns for it. -/
def logDateConverter.Convert (env : Env) (opt : Bytes) (origin : Option LogEvent)
    (buf : Bytes) : Option Bytes :=
  match origin with
  | none => some buf
  | some e => some (env.convertFormat buf e.rfc3339Nano env.TimestampFormat opt).1

/-- `bytes.LastIndex(name, "/")`: the largest index of a `/` in `name`, or `-1`. -/
def lastIndexSlash (name : Bytes) : Int :=
  match (name.reverse.indexOf? 47) with
  | none => -1
  | some k => (name.length : Int) - 1 - (k : Int)

/-- The loop of `abbreviator` from index `i` on, over the bytes `name[i:]`. -/
def abbreviatorLoop (opt length index : Int) : Nat → Bytes → Bytes → Bool → Bytes
  | _, [], abbr, _ => abbr
  | i, tmp :: rest, abbr, gotAbbr =>
    if ¬ ((i : Int) < length - 1) then abbr
    else if tmp = 47 ∨ tmp = 46 then
      if (i : Int) = index ∨ (abbr.length : Int) + length - (i : Int) + 1 ≤ opt then
        abbr ++ tmp :: rest
      else abbreviatorLoop opt length index (i + 1) rest (abbr ++ [tmp]) false
    else if gotAbbr then abbreviatorLoop opt length index (i + 1) rest abbr gotAbbr
    else abbreviatorLoop opt length index (i + 1) rest (abbr ++ [tmp]) true

/-- `lc.abbreviator(name)` of a `loggerConverter` whose option is `opt`. -/
def loggerConverter.abbreviator (opt : Int) (name : Bytes) : Bytes :=
  if opt ≤ 0 ∨ (name.length : Int) ≤ opt then name
  else if lastIndexSlash name ≤ 0 then name
  else abbreviatorLoop opt (name.length : Int) (lastIndexSlash name) 0 name [] false

/-- `strconv.Atoi(s)` with a 64-bit `int`: an optional sign and at least one decimal
digit, nothing else, and a value that fits; `none` is a returned error. -/
def Atoi (s : Bytes) : Option Int :=
  let digits := match s with
    | 43 :: rest => rest
    | 45 :: rest => rest
    | _ => s
  if digits = [] ∨ ¬ (digits.all fun d => decide (48 ≤ d ∧ d ≤ 57)) = true then none
  else
    let n : Int := digits.foldl (fun acc d => acc * 10 + ((d.toNat : Int) - 48)) 0
    let v : Int := if s.head? = some 45 then -n else n
    if v < -(2 : Int) ^ 63 ∨ (2 : Int) ^ 63 ≤ v then none else some v

/-- `loggerConverter.AttachOptions(opts)` on a converter whose option is `opt`: the option
afterwards. -/
def loggerConverter.AttachOptions (opt : Int) (opts : List Bytes) : Int :=
  match opts with
  | [] => opt
  | first :: _ =>
    match Atoi first with
    | none => opt
    | some n => n

/-- `loggerConverter.Convert(origin, buf)` of a converter whose option is `opt`. -/
def loggerConverter.Convert (opt : Int) (origin : Option LogEvent) (buf : Bytes) :
    Option Bytes :=
  match origin with
  | none => some (buf ++ [45])
  | some e =>
    if e.Logger.length = 0 then some (buf ++ [45])
    else some (buf ++ loggerConverter.abbreviator opt e.Logger)

/-- `messageConverter.Convert(origin, buf)`. -/
def messageConverter.Convert (origin : Option LogEvent) (buf : Bytes) : Option Bytes :=
  match origin with
  | none => some (buf ++ [45])
  | some e =>
    if e.Message.length = 0 then some (buf ++ [45])
    else some (buf ++ e.Message)

/-- What the callback of `fieldsConverter.Convert` writes for one field: the key, `=`, the
value and a space. -/
def writeField (buf : Bytes) (field : Bytes × Bytes × Bool) : Bytes :=
  buf ++ field.1 ++ str "=" ++ field.2.1 ++ [32]

/-- `fieldsConverter.Convert(origin, buf)`: every field is written with a space after it,
then `buf.Truncate(buf.Len() - 1)` removes the last byte of the buffer. -/
def fieldsConverter.Convert (origin : Option LogEvent) (buf : Bytes) : Option Bytes :=
  match origin with
  | none => some buf
  | some e =>
    let written := e.Fields.foldl writeField buf
    Truncate written ((written.length : Int) - 1)

/-- The start of `colorConverter.Convert`: the scratch buffer after the outer colour code,
which is written when there is an option; a name that is not in `colorMap` gives white. -/
def colorConverter.outer (env : Env) (opts : List Bytes) : Bytes :=
  match opts with
  | [] => []
  | first :: _ => writeColor ((colorMap env first).getD env.colorWhite) []

/-- The loop of `colorConverter.Convert` over the child chain, on the scratch buffer
`scratch` of the colour converter: a `levelConverter` is wrapped in the colour of the level
of the event and a reset, every other converter converts onto the scratch buffer.  A child
that is a `colorConverter` runs the same loop on a scratch buffer of its own. -/
def colorConverter.children (env : Env) (e : LogEvent) : Converter → Bytes → Option Bytes
  | Converter.nil, scratch => some scratch
  | Converter.level next, scratch =>
    match levelConverter.Convert (some e)
        (writeColor ((levelColorMap env e.LevelInt).getD env.colorWhite) scratch) with
    | none => none
    | some b => colorConverter.children env e next (writeColorEnd b)
  | Converter.color opts child next, scratch =>
    match colorConverter.children env e child (colorConverter.outer env opts) with
    | none => none
    | some inner => colorConverter.children env e next (scratch ++ writeColorEnd inner)
  | Converter.literal text next, scratch =>
    colorConverter.children env e next (scratch ++ text)
  | Converter.date opt _ next, scratch =>
    match logDateConverter.Convert env opt (some e) scratch with
    | none => none
    | some b => colorConverter.children env e next b
  | Converter.logger opt next, scratch =>
    match loggerConverter.Convert opt (some e) scratch with
    | none => none
    | some b => colorConverter.children env e next b
  | Converter.message next, scratch =>
    match messageConverter.Convert (some e) scratch with
    | none => none
    | some b => colorConverter.children env e next b
  | Converter.fields next, scratch =>
    match fieldsConverter.Convert (some e) scratch with
    | none => none
    | some b => colorConverter.children env e next b

/-- `colorConverter.Convert(origin, buf)` of a converter with options `opts` and child
chain `child`. -/
def colorConverter.Convert (env : Env) (opts : List Bytes) (child : Converter)
    (origin : Option LogEvent) (buf : Bytes) : Option Bytes :=
  match origin with
  | none => some buf
  | some e =>
    match colorConverter.children env e child (colorConverter.outer env opts) with
    | none => none
    | some scratch => some (buf ++ writeColorEnd scratch)

/-- The call `c.Convert(origin, buf)` on a converter `c`; a call on `nil` panics. -/
def Converter.Convert (env : Env) (c : Converter) (origin : Option LogEvent) (buf : Bytes) :
    Option Bytes :=
  match c with
  | Converter.nil => none
  | Converter.literal text _ => some (buf ++ text)
  | Converter.color opts child _ => colorConverter.Convert env opts child origin buf
  | Converter.level _ => levelConverter.Convert origin buf
  | Converter.date opt _ _ => logDateConverter.Convert env opt origin buf
  | Converter.logger opt _ => loggerConverter.Convert opt origin buf
  | Converter.message _ => messageConverter.Convert origin buf
  | Converter.fields _ => fieldsConverter.Convert origin buf

/-- `newColorConverter()`. -/
def newColorConverter : Converter := Converter.color [] Converter.nil Converter.nil

/-- `newLevelConverter()`. -/
def newLevelConverter : Converter := Converter.level Converter.nil

/-- `newLogDateConverter()`: the pattern starts as `2006-01-02`. -/
def newLogDateConverter : Converter :=
  Converter.date (str "2006-01-02") Converter.nil Converter.nil

/-- `newLoggerConverter()`: the option starts as `-1`. -/
def newLoggerConverter : Converter := Converter.logger (-1) Converter.nil

/-- `newMessageConverter()`. -/
def newMessageConverter : Converter := Converter.message Converter.nil

/-- `newFieldsConverter()`. -/
def newFieldsConverter : Converter := Converter.fields Converter.nil

/-- The call `c.AttachOptions(opts)`: the converter afterwards; a call on `nil` panics. -/
def Converter.AttachOptions (c : Converter) (opts : List Bytes) : Option Converter :=
  match c with
  | Converter.nil => none
  | Converter.literal text next => some (Converter.literal text next)
  | Converter.color _ child next => some (Converter.color opts child next)
  | Converter.level next => some (Converter.level next)
  | Converter.date opt child next =>
    some (Converter.date (logDateConverter.AttachOptions opt opts) child next)
  | Converter.logger opt next =>
    some (Converter.logger (loggerConverter.AttachOptions opt opts) next)
  | Converter.message next => some (Converter.message next)
  | Converter.fields next => some (Converter.fields next)

/-- The factories of type `NewConverter`: the six of `pattern_encoder.go`, and the
functions a caller supplies, told apart by a tag. -/
inductive NewConverter where
  | newColorConverter
  | newLevelConverter
  | newLogDateConverter
  | newLoggerConverter
  | newMessageConverter
  | newFieldsConverter
  | supplied (tag : Nat)
deriving DecidableEq, Repr

/-- The map literal `converters` of `NewPatternEncoder`, as the lookup by name. -/
def builtinConverters (name : Bytes) : Option NewConverter :=
  if name = str "color" then some NewConverter.newColorConverter
  else if name = str "level" then some NewConverter.newLevelConverter
  else if name = str "date" then some NewConverter.newLogDateConverter
  else if name = str "logger" then some NewConverter.newLoggerConverter
  else if name = str "message" then some NewConverter.newMessageConverter
  else if name = str "fields" then some NewConverter.newFieldsConverter
  else none

/-- The assignment `converters[k] = c` on a map seen as its lookup. -/
def mapSet (m : Bytes → Option NewConverter) (k : Bytes) (c : NewConverter) :
    Bytes → Option NewConverter :=
  fun name => if name = k then some c else m name

/-- The map `converters` that `NewPatternEncoder` hands to `NewPatternCompiler`: the map
literal after the loop `for k, c := range opts.Converters`, which visits the entries of
the map of the caller in the order `entries`. -/
def NewPatternEncoder.converters (entries : List (Bytes × NewConverter)) :
    Bytes → Option NewConverter :=
  entries.foldl (fun m kc => mapSet m kc.1 kc.2) builtinConverters

/-- The loop `for c := pe.converter; c != nil; c = c.Next()` of `Encode`: every converter
of the chain converts onto the buffer, head first. -/
def convertChain (env : Env) (e : LogEvent) : Converter → Bytes → Option Bytes
  | Converter.nil, buf => some buf
  | Converter.literal text next, buf =>
    match (Converter.literal text next).Convert env (some e) buf with
    | none => none
    | some b => convertChain env e next b
  | Converter.color opts child next, buf =>
    match (Converter.color opts child next).Convert env (some e) buf with
    | none => none
    | some b => convertChain env e next b
  | Converter.level next, buf =>
    match (Converter.level next).Convert env (some e) buf with
    | none => none
    | some b => convertChain env e next b
  | Converter.date opt child next, buf =>
    match (Converter.date opt child next).Convert env (some e) buf with
    | none => none
    | some b => convertChain env e next b
  | Converter.logger opt next, buf =>
    match (Converter.logger opt next).Convert env (some e) buf with
    | none => none
    | some b => convertChain env e next b
  | Converter.message next, buf =>
    match (Converter.message next).Convert env (some e) buf with
    | none => none
    | some b => convertChain env e next b
  | Converter.fields next, buf =>
    match (Converter.fields next).Convert env (some e) buf with
    | none => none
    | some b => convertChain env e next b

/-- The struct `patternEncoder`; `locker` carries no data. -/
structure patternEncoder where
  buf : Bytes
  converter : Converter
deriving DecidableEq, Repr

/-- `pe.Encode(e)`: the pair `(data, err)` and the encoder after the call; `none` is a
panic inside a converter. -/
def patternEncoder.Encode (env : Env) (pe : patternEncoder) (e : LogEvent) :
    Option ((Bytes × Option Error) × patternEncoder) :=
  match convertChain env e pe.converter pe.buf with
  | none => none
  | some b => some ((b ++ [10], none), { pe with buf := [] })

/-- An environment for the examples: the ANSI colour codes 30 to 37 and 90 to 97, and a
stand-in for `convertFormat` that appends the stored timestamp as it is. -/
def ansi : Env :=
  { colorBlack := 30, colorRed := 31, colorGreen := 32, colorYellow := 33, colorBlue := 34,
    colorMagenta := 35, colorCyan := 36, colorWhite := 37,
    colorBrightBlack := 90, colorBrightRed := 91, colorBrightGreen := 92,
    colorBrightYellow := 93, colorBrightBlue := 94, colorBrightMagenta := 95,
    colorBrightCyan := 96, colorBrightWhite := 97,
    TimestampFormat := str "2006-01-02T15:04:05.000Z07:00",
    convertFormat := fun dst value _ _ => (dst ++ value, none) }

/-- An event with the level text, the message and the fields given, and no logger name. -/
def event (lvl : Level) (text message : Bytes) (fields : List (Bytes × Bytes × Bool)) :
    LogEvent :=
  { LevelInt := lvl, Level := text, Message := message, Logger := [], Fields := fields,
    rfc3339Nano := str "2021-03-04T05:06:07.000Z" }

/-! ## Writes in a row, draining, the older fields converter, the zerolog binder -/

/-- The calls `Write(p)` for the payloads of a list, one after the other with no `Take` in
between: the writer at the end and the results `(n, err)` in order; `none` is a panic. -/
def asyncWriter.writeAll (w : asyncWriter) :
    List Bytes → Option (asyncWriter × List (Int × Option Error))
  | [] => some (w, [])
  | p :: ps =>
    match w.Write p with
    | none => none
    | some (r, w') =>
      match asyncWriter.writeAll w' ps with
      | none => none
      | some (w'', rs) => some (w'', r :: rs)

/-- The steps that end an interleaving: the consumer is started (a call of `Start`, which
changes nothing when it runs already), the producer that is between test and `Put`
finishes its `Write`, and the worker hands on what it holds and then iterates 241 times,
more often than the queue can hold payloads. -/
def System.drain : List Event :=
  [Event.start, Event.put, Event.forward] ++
    (List.replicate 241 [Event.take, Event.forward]).flatten

/-- A separator of a logger name: the byte `/` or the byte `.`. -/
def isSeparator (b : UInt8) : Bool :=
  b = 47 || b = 46

/-- The words of the claim on the abbreviation, from the left of a name: a separator is
kept, the first byte of a segment (a byte right after a separator, or the first byte of
all) is kept, every other byte of a segment is left out.  `afterSeparator` tells whether
the byte before the first one was a separator or the start. -/
def reduceSegmentsFrom (afterSeparator : Bool) : Bytes → Bytes
  | [] => []
  | b :: rest =>
    if isSeparator b then b :: reduceSegmentsFrom true rest
    else if afterSeparator then b :: reduceSegmentsFrom false rest
    else reduceSegmentsFrom false rest

/-- Every segment of `name` reduced to its first byte, with the separators kept. -/
def reduceSegments (name : Bytes) : Bytes :=
  reduceSegmentsFrom true name

/-- The struct `logEvent` of `slago-api/pattern_encoder.go`.  The timestamp is an instant;
`fields` is the map `map[string]interface{}` as the entries in the order `range` visits
them, every value as `%v` prints it. -/
structure api.logEvent where
  level : Level
  timestamp : Int
  message : Bytes
  fields : List (Bytes × Bytes)
deriving DecidableEq, Repr

/-- `fieldsConverter.Convert(event)` of `slago-api/pattern_encoder.go`: the string it
returns; `event` is `none` when it is not a `logEvent`.  Every field is written to the
scratch buffer of the converter as `fmt.Sprintf("%s=%v ", k, v)`; the buffer is returned
as it is and reset. -/
def api.fieldsConverter.Convert (event : Option api.logEvent) : Bytes :=
  match event with
  | none => []
  | some logEvent =>
    logEvent.fields.foldl (fun buf kv => buf ++ (kv.1 ++ str "=" ++ kv.2 ++ str " ")) []

/-- The type `zerolog.Level` of the zerolog library, which is outside the given sources:
its named levels.  `DebugLevel` is its zero value, which a map lookup returns for a key
that is absent. -/
inductive zerolog.Level where
  | DebugLevel
  | InfoLevel
  | WarnLevel
  | ErrorLevel
  | FatalLevel
  | PanicLevel
  | NoLevel
  | Disabled
  | TraceLevel
deriving DecidableEq, Repr

/-- The map `slagoLvlToZeroLvl` of `zerolog_logger.go`, as the lookup
`slagoLvlToZeroLvl[lvl]`. -/
def slagoLvlToZeroLvl : Level → zerolog.Level
  | Level.TraceLevel => zerolog.Level.NoLevel
  | Level.DebugLevel => zerolog.Level.DebugLevel
  | Level.InfoLevel => zerolog.Level.InfoLevel
  | Level.WarnLevel => zerolog.Level.WarnLevel
  | Level.ErrorLevel => zerolog.Level.ErrorLevel
  | Level.FatalLevel => zerolog.Level.FatalLevel
  | Level.PanicLevel => zerolog.Level.PanicLevel
  | Level.other _ => zerolog.Level.DebugLevel

/-- The local variable `zeroLevel` of `zeroLogger.SetLevel(lvl)` after the `if`: the level
of the table, with `zerolog.NoLevel` replaced by `zerolog.TraceLevel`. -/
def zeroLogger.SetLevel.zeroLevel (lvl : Level) : zerolog.Level :=
  if slagoLvlToZeroLvl lvl = zerolog.Level.NoLevel then zerolog.Level.TraceLevel
  else slagoLvlToZeroLvl lvl

/-- `zeroLogger.SetLevel(lvl)`: the zerolog global level after the call, which is the
argument of `zerolog.SetGlobalLevel`.  The code passes `slagoLvlToZeroLvl[lvl]`, not the
local variable `zeroLevel`. -/
def zeroLogger.SetLevel (lvl : Level) : zerolog.Level :=
  slagoLvlToZeroLvl lvl

/-- The count of launched workers agrees with the flag `isStarted`: one worker when the
writer is started, none before. -/
def System.launchedOnce (s : System) : Prop :=
  s.launched = if s.w.isStarted then 1 else 0

/-- A system at rest in front of a running worker: the invariant with `n` queued payloads,
no producer between test and `Put`, nothing in the hands of the worker. -/
structure System.Quiet (s : System) (ref : Writer) (t n : Nat) : Prop where
  inv : s.Inv ref t n
  producer : s.producer = none
  worker : s.worker = none
  launched : s.launched ≠ 0

/-! ## Chains of converters, and what `Take` returns along an interleaving -/

/-- The method `Next()` of a converter: the converter linked after it. -/
def Converter.Next : Converter → Converter
  | Converter.nil => Converter.nil
  | Converter.literal _ next => next
  | Converter.color _ _ next => next
  | Converter.level next => next
  | Converter.date _ _ next => next
  | Converter.logger _ next => next
  | Converter.message next => next
  | Converter.fields next => next

/-- The case `*levelConverter` of the type switch in `colorConverter.Convert`. -/
def Converter.isLevel : Converter → Bool
  | Converter.level _ => true
  | _ => false

/-- The chain `c` with the chain `d` linked after its last converter. -/
def Converter.append : Converter → Converter → Converter
  | Converter.nil, d => d
  | Converter.literal text next, d => Converter.literal text (next.append d)
  | Converter.color opts child next, d => Converter.color opts child (next.append d)
  | Converter.level next, d => Converter.level (next.append d)
  | Converter.date opt child next, d => Converter.date opt child (next.append d)
  | Converter.logger opt next, d => Converter.logger opt (next.append d)
  | Converter.message next, d => Converter.message (next.append d)
  | Converter.fields next, d => Converter.fields (next.append d)

/-- The chains made of literal, logger and message converters only. -/
def Converter.plain : Converter → Bool
  | Converter.nil => true
  | Converter.literal _ next => next.plain
  | Converter.logger _ next => next.plain
  | Converter.message next => next.plain
  | _ => false

/-- What the converters of a chain of literal, logger and message converters write for the
event `e`, one after the other: the stored text of a literal, the logger name (abbreviated,
`-` when empty), the message (`-` when empty). -/
def Converter.plainOutput (e : LogEvent) : Converter → Bytes
  | Converter.literal text next => text ++ next.plainOutput e
  | Converter.logger opt next =>
    (if e.Logger.length = 0 then [45] else loggerConverter.abbreviator opt e.Logger)
      ++ next.plainOutput e
  | Converter.message next =>
    (if e.Message.length = 0 then [45] else e.Message) ++ next.plainOutput e
  | _ => []

/-- The level segment a colour converter writes for the event `e`: the colour code of the
severity (white for a level outside the table), the level text, the reset. -/
def colorConverter.levelSegment (env : Env) (e : LogEvent) : Bytes :=
  [27, 91] ++ Itoa ((levelColorMap env e.LevelInt).getD env.colorWhite) ++ [109]
    ++ e.Level ++ [27, 91, 48, 109]

/-- What the step `e` hands to the worker: the payload `Take` returns when the step is a
`Take` of the running worker that does not wait; nothing for every other step. -/
def System.taken (s : System) : Event → List Bytes
  | Event.take =>
    if s.launched = 0 ∨ s.worker.isSome then []
    else
      match s.w.queue.Take with
      | TakeResult.returned data _ => [data]
      | _ => []
  | _ => []

/-- The payloads the calls of `Take` return along an interleaving, in order. -/
def System.takes (s : System) : List Event → List Bytes
  | [] => []
  | e :: events =>
    match s.step e with
    | none => []
    | some s' => s.taken e ++ s'.takes events

/-! ## Arithmetic of the ring indices -/


/-- Advancing an index by one with the wrap of the code is advancing it modulo `c`. -/
theorem succ_mod_wrap (a c : Nat) (hc : 0 < c) :
    (a + 1) % c = if a % c + 1 = c then 0 else a % c + 1 := by
  have hr : a % c < c := Nat.mod_lt a hc
  rw [Nat.add_mod]
  by_cases h1 : c = 1
  · subst h1
    simp [Nat.mod_one]
  · have h1c : 1 % c = 1 := Nat.mod_eq_of_lt (by omega)
    rw [h1c]
    split
    · next h => rw [h, Nat.mod_self]
    · next h => exact Nat.mod_eq_of_lt (by omega)

/-- Two offsets less than `c` apart land on different slots of a ring of `c` slots. -/
theorem add_mod_ne (t a b c : Nat) (hab : a < b) (hbc : b < a + c) :
    (t + a) % c ≠ (t + b) % c := by
  intro h
  have h2 : ((t + b) - (t + a)) % c = 0 := Nat.sub_mod_eq_zero_of_mod_eq h.symm
  have h3 : (t + b) - (t + a) = b - a := by omega
  rw [h3, Nat.mod_eq_of_lt (by omega)] at h2
  omega

/-- Offsets counted from the advanced index are offsets one larger from the old index. -/
theorem mod_succ_add (t k c : Nat) : ((t + 1) % c + k) % c = (t + (k + 1)) % c := by
  rw [Nat.mod_add_mod]
  congr 1
  omega

/-- The slot access at a natural index is the list lookup. -/
theorem slot_natCast (items : List Bytes) (i : Nat) : slot items (i : Int) = items[i]? := by
  unfold slot
  by_cases h : i < items.length
  · simp [h]
  · have : ¬ ((i : Int) < (items.length : Int)) := by omega
    simp only [this, and_false, if_false]
    exact (List.getElem?_eq_none (by omega)).symm

/-- A new queue of positive capacity keeps the ring discipline. -/
theorem Ring_new (cap : Nat) (hc : 0 < cap) : Ring (NewBlockingQueue cap) cap 0 0 := by
  refine ⟨by simp [NewBlockingQueue], rfl, hc, rfl, by simp [NewBlockingQueue], ?_⟩
  intro i hi _
  simp [NewBlockingQueue, List.getElem?_replicate, hi]

/-- `Put` on a ring returns, writes the slot `count` after `takeIndex`, and keeps the
ring discipline with one more payload. -/
theorem Ring_put {q : blockingQueue} {cap t n : Nat} (h : Ring q cap t n) (item : Bytes) :
    ∃ buf, q.items[(t + n) % cap]? = some buf ∧
      q.Put item = some
        { items := q.items.set ((t + n) % cap) (buf ++ item), count := (n : Int) + 1,
          takeIndex := (t : Int), putIndex := (((t + (n + 1)) % cap : Nat) : Int) } ∧
      Ring { items := q.items.set ((t + n) % cap) (buf ++ item), count := (n : Int) + 1,
             takeIndex := (t : Int), putIndex := (((t + (n + 1)) % cap : Nat) : Int) }
        cap t (n + 1) := by
  have hc : 0 < cap := by have := h.take_lt; omega
  have hp : (t + n) % cap < cap := Nat.mod_lt _ hc
  have hlt : (t + n) % cap < q.items.length := by rw [h.len]; exact hp
  refine ⟨q.items[(t + n) % cap], List.getElem?_eq_getElem hlt, ?_, ?_⟩
  · unfold blockingQueue.Put
    rw [h.put_eq, slot_natCast, List.getElem?_eq_getElem hlt]
    simp only [Int.toNat_ofNat, List.length_set, h.len, h.count_eq, h.take_eq]
    have hw := succ_mod_wrap (t + n) cap hc
    have e : t + (n + 1) = t + n + 1 := by omega
    rw [e, hw]
    congr 2
    split <;> split <;> first | rfl | omega
  · refine ⟨by simp [h.len], rfl, h.take_lt, by push_cast; rfl, rfl, ?_⟩
    intro i hi hout
    have hne : (t + n) % cap ≠ i := hout n (by omega)
    have hold : q.items[i]? = some [] := h.free i hi (fun k hk => hout k (by omega))
    simp only
    rw [List.getElem?_set_ne hne]
    exact hold

/-- `Take` on a ring that is not empty returns the slot at `takeIndex`, empties it, and
keeps the ring discipline with one payload less. -/
theorem Ring_take {q : blockingQueue} {cap t n : Nat} (h : Ring q cap t (n + 1)) :
    ∃ data, q.items[t]? = some data ∧
      q.Take = TakeResult.returned data
        { items := q.items.set t [], count := (n : Int),
          takeIndex := (((t + 1) % cap : Nat) : Int), putIndex := q.putIndex } ∧
      Ring { items := q.items.set t [], count := (n : Int),
             takeIndex := (((t + 1) % cap : Nat) : Int), putIndex := q.putIndex }
        cap ((t + 1) % cap) n := by
  have hc : 0 < cap := by have := h.take_lt; omega
  have hlt : t < q.items.length := by rw [h.len]; exact h.take_lt
  refine ⟨q.items[t], List.getElem?_eq_getElem hlt, ?_, ?_⟩
  · unfold blockingQueue.Take
    have hcnt : ¬ q.count = 0 := by rw [h.count_eq]; omega
    rw [if_neg hcnt, h.take_eq, slot_natCast, List.getElem?_eq_getElem hlt]
    simp only [Int.toNat_ofNat, h.len, h.count_eq]
    have hw := succ_mod_wrap t cap hc
    rw [Nat.mod_eq_of_lt h.take_lt] at hw
    rw [hw]
    congr 2
    · push_cast; omega
    · split <;> split <;> first | rfl | omega
  · refine ⟨by simp [h.len], rfl, Nat.mod_lt _ hc, rfl, ?_, ?_⟩
    · simp only
      rw [h.put_eq, mod_succ_add]
    · intro i hi hout
      simp only
      by_cases hit : t = i
      · subst hit
        simp [List.getElem?_set_self, hlt]
      · rw [List.getElem?_set_ne hit]
        apply h.free i hi
        intro k hk
        cases k with
        | zero => simpa [Nat.mod_eq_of_lt h.take_lt] using hit
        | succ k =>
          have := hout k (by omega)
          rwa [mod_succ_add] at this

/-! ## The ring discipline is kept by `Put` and `Take` -/

/-- The queued payloads of a ring, by offsets from `takeIndex`. -/
theorem pending_eq {q : blockingQueue} {cap t n : Nat} (h : Ring q cap t n) :
    q.pending = (List.range n).map fun k => (q.items[(t + k) % cap]?).getD [] := by
  unfold blockingQueue.pending
  rw [h.count_eq, h.take_eq, h.len]
  rfl

/-- Below capacity the slot `Put` writes to is empty. -/
theorem Ring_put_free {q : blockingQueue} {cap t n : Nat} (h : Ring q cap t n) (hn : n < cap) :
    q.items[(t + n) % cap]? = some [] := by
  have hc : 0 < cap := by omega
  exact h.free _ (Nat.mod_lt _ hc) (fun k hk => add_mod_ne t k n cap hk (by omega))

/-- Below capacity `Put` adds the payload at the end of the queued ones. -/
theorem pending_put {q q' : blockingQueue} {cap t n : Nat} (h : Ring q cap t n)
    (h' : Ring q' cap t (n + 1)) (hn : n < cap) (item : Bytes)
    (hitems : q'.items = q.items.set ((t + n) % cap) item) :
    q'.pending = q.pending ++ [item] := by
  have hc : 0 < cap := by omega
  have hlt : (t + n) % cap < q.items.length := by rw [h.len]; exact Nat.mod_lt _ hc
  rw [pending_eq h, pending_eq h', List.range_succ, List.map_append, hitems]
  congr 1
  · apply List.map_congr_left
    intro k hk
    have hk' : k < n := List.mem_range.mp hk
    have hne : (t + n) % cap ≠ (t + k) % cap := (add_mod_ne t k n cap hk' (by omega)).symm
    simp only [List.getElem?_set_ne hne]
  · simp [List.getElem?_set_self hlt]

/-- Within capacity `Take` removes the first of the queued payloads. -/
theorem pending_take {q q' : blockingQueue} {cap t n : Nat} (h : Ring q cap t (n + 1))
    (h' : Ring q' cap ((t + 1) % cap) n) (hn : n + 1 ≤ cap) (data : Bytes)
    (hdata : q.items[t]? = some data) (hitems : q'.items = q.items.set t []) :
    q.pending = data :: q'.pending := by
  rw [pending_eq h, pending_eq h', List.range_succ_eq_map, List.map_cons, List.map_map, hitems]
  congr 1
  · simp [Nat.mod_eq_of_lt h.take_lt, hdata]
  · apply List.map_congr_left
    intro k hk
    have hk' : k < n := List.mem_range.mp hk
    have hne : t ≠ (t + (k + 1)) % cap := by
      have := add_mod_ne t 0 (k + 1) cap (by omega) (by omega)
      simpa [Nat.mod_eq_of_lt h.take_lt] using this
    simp only [Function.comp, mod_succ_add, List.getElem?_set_ne hne, Nat.succ_eq_add_one]

/-- Every call that returns keeps the ring discipline. -/
theorem step_ring {q q' : blockingQueue} {cap t n : Nat} {op : Op} {out : List Bytes}
    (h : Ring q cap t n) (hs : q.step op = some (q', out)) :
    ∃ t' n', Ring q' cap t' n' := by
  cases op with
  | put item =>
    obtain ⟨buf, _, hput, hring⟩ := Ring_put h item
    simp only [blockingQueue.step, hput, Option.some.injEq, Prod.mk.injEq] at hs
    exact ⟨t, n + 1, hs.1 ▸ hring⟩
  | take =>
    cases n with
    | zero =>
      have h0 : q.count = 0 := by rw [h.count_eq]; rfl
      simp [blockingQueue.step, blockingQueue.Take, h0] at hs
    | succ n =>
      obtain ⟨data, _, htake, hring⟩ := Ring_take h
      simp only [blockingQueue.step, htake, Option.some.injEq, Prod.mk.injEq] at hs
      exact ⟨(t + 1) % cap, n, hs.1 ▸ hring⟩

/-- Every sequence of calls that returns keeps the ring discipline. -/
theorem run_ring {cap : Nat} : ∀ (ops : List Op) (q q' : blockingQueue) (t n : Nat)
    (out : List Bytes), Ring q cap t n → q.run ops = some (q', out) →
    ∃ t' n', Ring q' cap t' n' := by
  intro ops
  induction ops with
  | nil =>
    intro q q' t n out h hr
    simp only [blockingQueue.run, Option.some.injEq, Prod.mk.injEq] at hr
    exact ⟨t, n, hr.1 ▸ h⟩
  | cons op ops ih =>
    intro q q' t n out h hr
    unfold blockingQueue.run at hr
    cases hs : q.step op with
    | none => simp [hs] at hr
    | some r =>
      obtain ⟨q1, o1⟩ := r
      obtain ⟨t1, n1, h1⟩ := step_ring h hs
      simp only [hs] at hr
      cases hr2 : q1.run ops with
      | none => simp [hr2] at hr
      | some r2 =>
        obtain ⟨q2, o2⟩ := r2
        simp only [hr2, Option.some.injEq, Prod.mk.injEq] at hr
        exact hr.1 ▸ ih q1 q2 t1 n1 o2 h1 hr2

/-- A call that returns, a `Put` only below capacity, keeps `count` within capacity and
the queued payloads in first-in first-out order. -/
theorem step_fifo {q q' : blockingQueue} {cap t n : Nat} {op : Op} {out : List Bytes}
    (h : Ring q cap t n) (hn : n ≤ cap) (hs : q.step op = some (q', out))
    (hg : ∀ item, op = Op.put item → 0 < q.RemainCapacity) :
    ∃ t' n', Ring q' cap t' n' ∧ n' ≤ cap ∧ q.pending ++ putItems [op] = out ++ q'.pending := by
  cases op with
  | put item =>
    have hrem := hg item rfl
    have hlt : n < cap := by
      unfold blockingQueue.RemainCapacity at hrem
      rw [h.count_eq, h.len] at hrem
      omega
    obtain ⟨buf, hbuf, hput, hring⟩ := Ring_put h item
    have hb : buf = [] := by
      have := Ring_put_free h hlt
      rw [hbuf] at this
      exact Option.some.inj this
    subst hb
    simp only [blockingQueue.step, hput, Option.some.injEq, Prod.mk.injEq] at hs
    obtain ⟨hq, ho⟩ := hs
    subst hq; subst ho
    refine ⟨t, n + 1, hring, hlt, ?_⟩
    rw [pending_put h hring hlt item (by simp)]
    simp [putItems]
  | take =>
    cases n with
    | zero =>
      have h0 : q.count = 0 := by rw [h.count_eq]; rfl
      simp [blockingQueue.step, blockingQueue.Take, h0] at hs
    | succ n =>
      obtain ⟨data, hdata, htake, hring⟩ := Ring_take h
      simp only [blockingQueue.step, htake, Option.some.injEq, Prod.mk.injEq] at hs
      obtain ⟨hq, ho⟩ := hs
      subst hq; subst ho
      refine ⟨(t + 1) % cap, n, hring, by omega, ?_⟩
      rw [pending_take h hring hn data hdata rfl]
      simp [putItems]

/-- The payloads put by a sequence, split at its first call. -/
theorem putItems_cons (op : Op) (ops : List Op) :
    putItems (op :: ops) = putItems [op] ++ putItems ops := by
  cases op <;> simp [putItems]

/-- Along a sequence with every `Put` below capacity, the payloads queued at the start
followed by the payloads put are the payloads taken followed by those still queued. -/
theorem run_fifo {cap : Nat} : ∀ (ops : List Op) (q q' : blockingQueue) (t n : Nat)
    (out : List Bytes), Ring q cap t n → n ≤ cap → q.run ops = some (q', out) →
    q.putsBelowCapacity ops = true →
    ∃ t' n', Ring q' cap t' n' ∧ n' ≤ cap ∧ q.pending ++ putItems ops = out ++ q'.pending := by
  intro ops
  induction ops with
  | nil =>
    intro q q' t n out h hn hr _
    simp only [blockingQueue.run, Option.some.injEq, Prod.mk.injEq] at hr
    obtain ⟨hq, ho⟩ := hr
    subst hq; subst ho
    exact ⟨t, n, h, hn, by simp [putItems]⟩
  | cons op ops ih =>
    intro q q' t n out h hn hr hg
    unfold blockingQueue.run at hr
    unfold blockingQueue.putsBelowCapacity at hg
    cases hs : q.step op with
    | none => simp [hs] at hr
    | some r =>
      obtain ⟨q1, o1⟩ := r
      simp only [hs, Bool.and_eq_true] at hr hg
      have hguard : ∀ item, op = Op.put item → 0 < q.RemainCapacity := by
        intro item he
        subst he
        simpa using hg.1
      obtain ⟨t1, n1, h1, hn1, hp1⟩ := step_fifo h hn hs hguard
      cases hr2 : q1.run ops with
      | none => simp [hr2] at hr
      | some r2 =>
        obtain ⟨q2, o2⟩ := r2
        simp only [hr2, Option.some.injEq, Prod.mk.injEq] at hr
        obtain ⟨hq, ho⟩ := hr
        subst hq; subst ho
        obtain ⟨t2, n2, h2, hn2, hp2⟩ := ih q1 q2 t1 n1 o2 h1 hn1 hr2 hg.2
        refine ⟨t2, n2, h2, hn2, ?_⟩
        rw [putItems_cons, ← List.append_assoc, hp1, List.append_assoc, hp2, List.append_assoc]

/-! ## Helper facts about runs and slots -/

/-- On a queue of capacity 0 no call returns. -/
theorem run_zero (ops : List Op) (q : blockingQueue) (out : List Bytes)
    (hr : (NewBlockingQueue 0).run ops = some (q, out)) : q = NewBlockingQueue 0 := by
  cases ops with
  | nil =>
    simp only [blockingQueue.run, Option.some.injEq, Prod.mk.injEq] at hr
    exact hr.1.symm
  | cons op ops =>
    cases op <;>
      simp [blockingQueue.run, blockingQueue.step, blockingQueue.Put, blockingQueue.Take,
        slot, NewBlockingQueue] at hr

/-- A run of two sequences one after the other. -/
theorem run_append (q : blockingQueue) (a b : List Op) :
    q.run (a ++ b) =
      match q.run a with
      | none => none
      | some (q1, o1) =>
        match q1.run b with
        | none => none
        | some (q2, o2) => some (q2, o1 ++ o2) := by
  induction a generalizing q with
  | nil =>
    simp only [List.nil_append, blockingQueue.run, List.nil_append]
    cases q.run b with
    | none => rfl
    | some r => rfl
  | cons op a ih =>
    rw [List.cons_append]
    simp only [blockingQueue.run]
    cases q.step op with
    | none => rfl
    | some r =>
      obtain ⟨q1, o1⟩ := r
      simp only
      rw [ih q1]
      cases q1.run a with
      | none => rfl
      | some r1 =>
        obtain ⟨q2, o2⟩ := r1
        simp only
        cases q2.run b with
        | none => rfl
        | some r2 => simp [List.append_assoc]

/-- Puts that fit all return and queue their payloads in order. -/
theorem run_puts {cap : Nat} : ∀ (ps : List Bytes) (q : blockingQueue) (t n : Nat),
    Ring q cap t n → n + ps.length ≤ cap →
    ∃ q', q.run (ps.map Op.put) = some (q', []) ∧ Ring q' cap t (n + ps.length) ∧
      q'.pending = q.pending ++ ps := by
  intro ps
  induction ps with
  | nil =>
    intro q t n h _
    exact ⟨q, rfl, h, by simp⟩
  | cons p ps ih =>
    intro q t n h hn
    simp only [List.length_cons] at hn
    have hlt : n < cap := by omega
    obtain ⟨buf, hbuf, hput, hring⟩ := Ring_put h p
    have hb : buf = [] := by
      have := Ring_put_free h hlt
      rw [hbuf] at this
      exact Option.some.inj this
    subst hb
    simp only [List.nil_append] at hput hring
    obtain ⟨q', hrun, hring', hpend⟩ := ih _ t (n + 1) hring (by omega)
    refine ⟨q', ?_, ?_, ?_⟩
    · simp only [List.map_cons, blockingQueue.run, blockingQueue.step, hput, hrun,
        List.nil_append]
    · have e : n + (p :: ps).length = n + 1 + ps.length := by simp; omega
      rw [e]
      exact hring'
    · rw [hpend, pending_put h hring hlt p (by simp)]
      simp

/-- As many `Take`s as there are queued payloads return them in order. -/
theorem run_takes {cap : Nat} : ∀ (n : Nat) (q : blockingQueue) (t : Nat),
    Ring q cap t n → n ≤ cap →
    ∃ q' t', q.run (List.replicate n Op.take) = some (q', q.pending) ∧ Ring q' cap t' 0 := by
  intro n
  induction n with
  | zero =>
    intro q t h _
    refine ⟨q, t, ?_, h⟩
    simp [blockingQueue.run, pending_eq h]
  | succ n ih =>
    intro q t h hn
    obtain ⟨data, hdata, htake, hring⟩ := Ring_take h
    obtain ⟨q', t', hrun, hring'⟩ := ih _ _ hring (by omega)
    refine ⟨q', t', ?_, hring'⟩
    rw [pending_take h hring hn data hdata rfl]
    simp only [List.replicate_succ, blockingQueue.run, blockingQueue.step, htake, hrun,
      List.singleton_append]

/-- Writing one slot leaves the others. -/
theorem slot_set_ne (items : List Bytes) (k : Nat) (b : Bytes) (i : Int) (h : i ≠ (k : Int)) :
    slot (items.set k b) i = slot items i := by
  unfold slot
  simp only [List.length_set]
  split
  · next hi =>
    have hne : k ≠ i.toNat := by omega
    rw [List.getElem?_set_ne hne]
  · rfl

/-- Writing a slot in range leaves the written bytes there. -/
theorem slot_set_self (items : List Bytes) (k : Nat) (b : Bytes) (h : k < items.length) :
    slot (items.set k b) (k : Int) = some b := by
  rw [slot_natCast, List.getElem?_set_self h]

/-! ## The queue: claims C3, C5, C6, C7, C8 -/

/-- C3.  FIFO: on a queue of capacity `c > 0`, putting `N ≤ c` payloads and then taking
`N` times returns the payloads in the order they were put, every call returns, and the
queue ends with `count = 0`. -/
theorem queue_fifo (c : Nat) (hc : 0 < c) (ps : List Bytes) (hN : ps.length ≤ c) :
    ∃ q, (NewBlockingQueue c).run (ps.map Op.put ++ List.replicate ps.length Op.take)
        = some (q, ps) ∧ q.count = 0 := by
  obtain ⟨q1, hrun1, hring1, hpend1⟩ := run_puts ps _ 0 0 (Ring_new c hc) (by omega)
  rw [Nat.zero_add] at hring1
  obtain ⟨q2, t2, hrun2, hring2⟩ := run_takes ps.length q1 0 hring1 hN
  refine ⟨q2, ?_, ?_⟩
  · rw [run_append, hrun1]
    simp only [hrun2, hpend1, List.nil_append]
    simp [pending_eq (Ring_new c hc)]
  · rw [hring2.count_eq]; rfl

/-- Witness of C3: capacity 3, three payloads. -/
theorem queue_fifo_witness :
    0 < 3 ∧ ([[1], [2, 2], []] : List Bytes).length ≤ 3 ∧
    ∃ q, (NewBlockingQueue 3).run
        (([[1], [2, 2], []] : List Bytes).map Op.put ++
          List.replicate ([[1], [2, 2], []] : List Bytes).length Op.take)
        = some (q, [[1], [2, 2], []]) ∧ q.count = 0 :=
  ⟨by decide, by decide, queue_fifo 3 (by decide) [[1], [2, 2], []] (by decide)⟩

/-- C5, as stated, fails: `Put` makes no test for a full queue, so two `Put`s on a
queue of capacity 1 both return and leave `count = 2`. -/
theorem count_exceeds_capacity :
    ∃ q out, (NewBlockingQueue 1).run [Op.put [1], Op.put [2]] = some (q, out) ∧
      ¬ (q.count ≤ ((1 : Nat) : Int)) :=
  ⟨_, _, rfl, by decide⟩

/-- C5, amended.  For every capacity and every sequence of `Put`s and `Take`s that returns
in which each `Put` is issued on a queue that is not full, `0 ≤ count ≤ capacity` holds
in the state reached (hence after every operation of such a sequence). -/
theorem count_within_capacity (capacity : Nat) (ops : List Op) (q : blockingQueue)
    (out : List Bytes) (hr : (NewBlockingQueue capacity).run ops = some (q, out))
    (hg : (NewBlockingQueue capacity).putsBelowCapacity ops = true) :
    0 ≤ q.count ∧ q.count ≤ (capacity : Int) := by
  rcases Nat.eq_zero_or_pos capacity with h0 | hc
  · subst h0
    rw [run_zero ops q out hr]
    simp [NewBlockingQueue]
  · obtain ⟨t, n, hring, hn, _⟩ := run_fifo ops _ q 0 0 out (Ring_new capacity hc) (by omega) hr hg
    rw [hring.count_eq]
    omega

/-- Witness of C5 (amended): capacity 2, the queue filled, emptied by one, filled again. -/
theorem count_within_capacity_witness :
    (NewBlockingQueue 2).run [Op.put [1], Op.put [2], Op.take, Op.put [3]]
        = some ({ items := [[3], [2]], count := 2, takeIndex := 1, putIndex := 1 }, [[1]]) ∧
    (NewBlockingQueue 2).putsBelowCapacity [Op.put [1], Op.put [2], Op.take, Op.put [3]] = true ∧
    (0 ≤ (2 : Int) ∧ (2 : Int) ≤ ((2 : Nat) : Int)) :=
  ⟨by decide, by decide,
    count_within_capacity 2 [Op.put [1], Op.put [2], Op.take, Op.put [3]]
      { items := [[3], [2]], count := 2, takeIndex := 1, putIndex := 1 } [[1]]
      (by decide) (by decide)⟩

/-- A new queue has nothing queued. -/
theorem pending_new (cap : Nat) : (NewBlockingQueue cap).pending = [] := by
  simp [blockingQueue.pending, NewBlockingQueue]

/-- C6.  `Take` on a queue reached from `NewBlockingQueue(capacity)` by `Put`s and
`Take`s: with `count = 0` it waits; with `count > 0` it returns the contents of the slot
at `takeIndex`, sets `takeIndex` to `(takeIndex + 1) mod capacity`, decrements `count`,
leaves that slot empty and leaves `putIndex` and every other slot as they were; and when
no `Put` was issued on a full queue, what it returns is the oldest payload put and not
yet taken, the later ones staying queued in order. -/
theorem Take_returns_oldest (capacity : Nat) (ops : List Op) (q : blockingQueue)
    (out : List Bytes) (hr : (NewBlockingQueue capacity).run ops = some (q, out)) :
    (q.count = 0 → q.Take = TakeResult.blocked) ∧
    (0 < q.count → ∃ data q', q.Take = TakeResult.returned data q' ∧
      slot q.items q.takeIndex = some data ∧
      q'.takeIndex = (q.takeIndex + 1) % (capacity : Int) ∧
      q'.count = q.count - 1 ∧
      slot q'.items q.takeIndex = some [] ∧
      q'.putIndex = q.putIndex ∧
      (∀ i : Int, i ≠ q.takeIndex → slot q'.items i = slot q.items i) ∧
      ((NewBlockingQueue capacity).putsBelowCapacity ops = true →
        ∃ rest, putItems ops = out ++ data :: rest ∧ q'.pending = rest)) := by
  refine ⟨fun h0 => by simp [blockingQueue.Take, h0], ?_⟩
  intro hpos
  rcases Nat.eq_zero_or_pos capacity with h0 | hc
  · subst h0
    rw [run_zero ops q out hr] at hpos
    simp [NewBlockingQueue] at hpos
  · obtain ⟨t, n, hring⟩ := run_ring ops _ q 0 0 out (Ring_new capacity hc) hr
    cases n with
    | zero =>
      rw [hring.count_eq] at hpos
      simp at hpos
    | succ n =>
      obtain ⟨data, hdata, htake, hring'⟩ := Ring_take hring
      have hlt : t < q.items.length := by rw [hring.len]; exact hring.take_lt
      refine ⟨data, _, htake, ?_, ?_, ?_, ?_, rfl, ?_, ?_⟩
      · rw [hring.take_eq, slot_natCast, hdata]
      · simp only [hring.take_eq]
        push_cast
        rfl
      · simp only [hring.count_eq]
        push_cast
        omega
      · simp only [hring.take_eq]
        exact slot_set_self _ _ _ hlt
      · intro i hi
        rw [hring.take_eq] at hi
        exact slot_set_ne _ _ _ _ hi
      · intro hg
        obtain ⟨t2, n2, hring2, hn2, hfifo⟩ :=
          run_fifo ops _ q 0 0 out (Ring_new capacity hc) (by omega) hr hg
        have hn : n + 1 ≤ capacity := by
          have h1 := hring.count_eq
          have h2 := hring2.count_eq
          omega
        rw [pending_new, List.nil_append] at hfifo
        exact ⟨_, by rw [hfifo, pending_take hring hring' hn data hdata rfl], rfl⟩

/-- Witness of C6: capacity 2, two payloads put, one taken; the next `Take` returns the
second payload. -/
theorem Take_returns_oldest_witness :
    (NewBlockingQueue 2).run [Op.put [1], Op.put [2], Op.take]
        = some ({ items := [[], [2]], count := 1, takeIndex := 1, putIndex := 0 }, [[1]]) ∧
    (NewBlockingQueue 2).putsBelowCapacity [Op.put [1], Op.put [2], Op.take] = true ∧
    (blockingQueue.mk [[], [2]] 1 1 0).Take
        = TakeResult.returned [2] { items := [[], []], count := 0, takeIndex := 0, putIndex := 0 } ∧
    ∃ data q', (blockingQueue.mk [[], [2]] 1 1 0).Take = TakeResult.returned data q' ∧
      slot [[], [2]] 1 = some data ∧
      q'.takeIndex = ((1 : Int) + 1) % ((2 : Nat) : Int) ∧
      q'.count = (1 : Int) - 1 ∧
      slot q'.items 1 = some [] ∧
      q'.putIndex = 0 ∧
      (∀ i : Int, i ≠ 1 → slot q'.items i = slot [[], [2]] i) ∧
      ∃ rest, putItems [Op.put [1], Op.put [2], Op.take] = [[1]] ++ data :: rest ∧
        q'.pending = rest := by
  refine ⟨by decide, by decide, by decide, ?_⟩
  obtain ⟨data, q', h1, h2, h3, h4, h5, h6, h7, h8⟩ :=
    (Take_returns_oldest 2 [Op.put [1], Op.put [2], Op.take]
      { items := [[], [2]], count := 1, takeIndex := 1, putIndex := 0 } [[1]]
      (by decide)).2 (by decide)
  exact ⟨data, q', h1, h2, h3, h4, h5, h6, h7, h8 (by decide)⟩

/-- C7.  `Put` on a queue reached from `NewBlockingQueue(capacity)` by any `Put`s and
`Take`s that has `count < capacity`: the call returns, the slot at the old `putIndex`
holds exactly `item`, `putIndex` is `(putIndex + 1) mod capacity`, `count` is one more,
and `takeIndex` and every other slot are as they were. -/
theorem Put_fills_free_slot (capacity : Nat) (ops : List Op) (q : blockingQueue)
    (out : List Bytes) (hr : (NewBlockingQueue capacity).run ops = some (q, out))
    (hlt : q.count < (capacity : Int)) (item : Bytes) :
    ∃ q', q.Put item = some q' ∧
      slot q'.items q.putIndex = some item ∧
      q'.putIndex = (q.putIndex + 1) % (capacity : Int) ∧
      q'.count = q.count + 1 ∧
      q'.takeIndex = q.takeIndex ∧
      ∀ i : Int, i ≠ q.putIndex → slot q'.items i = slot q.items i := by
  rcases Nat.eq_zero_or_pos capacity with h0 | hc
  · subst h0
    rw [run_zero ops q out hr] at hlt
    simp [NewBlockingQueue] at hlt
  · obtain ⟨t, n, hring⟩ := run_ring ops _ q 0 0 out (Ring_new capacity hc) hr
    have hn : n < capacity := by
      rw [hring.count_eq] at hlt
      omega
    obtain ⟨buf, hbuf, hput, _⟩ := Ring_put hring item
    have hb : buf = [] := by
      have := Ring_put_free hring hn
      rw [hbuf] at this
      exact Option.some.inj this
    subst hb
    simp only [List.nil_append] at hput
    have hplt : (t + n) % capacity < q.items.length := by
      rw [hring.len]; exact Nat.mod_lt _ hc
    have hmod : (t + (n + 1)) % capacity = ((t + n) % capacity + 1) % capacity := by
      rw [Nat.mod_add_mod]
      rfl
    refine ⟨_, hput, ?_, ?_, ?_, ?_, ?_⟩
    · simp only [hring.put_eq]
      exact slot_set_self _ _ _ hplt
    · simp only [hring.put_eq, hmod]
      push_cast
      rfl
    · simp only [hring.count_eq]
    · simp only [hring.take_eq]
    · intro i hi
      rw [hring.put_eq] at hi
      exact slot_set_ne _ _ _ _ hi

/-- Witness of C7: capacity 2, after an overfull burst and two `Take`s the next `Put`
finds its slot empty. -/
theorem Put_fills_free_slot_witness :
    (NewBlockingQueue 2).run [Op.put [1], Op.put [2], Op.put [3], Op.take, Op.take]
        = some ({ items := [[], []], count := 1, takeIndex := 0, putIndex := 1 },
            [[1, 3], [2]]) ∧
    (1 : Int) < ((2 : Nat) : Int) ∧
    ∃ q', (blockingQueue.mk [[], []] 1 0 1).Put [4] = some q' ∧
      slot q'.items 1 = some [4] ∧
      q'.putIndex = ((1 : Int) + 1) % ((2 : Nat) : Int) ∧
      q'.count = (1 : Int) + 1 ∧
      q'.takeIndex = 0 ∧
      ∀ i : Int, i ≠ 1 → slot q'.items i = slot [[], []] i :=
  ⟨by decide, by decide,
    Put_fills_free_slot 2 [Op.put [1], Op.put [2], Op.put [3], Op.take, Op.take]
      { items := [[], []], count := 1, takeIndex := 0, putIndex := 1 } [[1, 3], [2]]
      (by decide) (by decide) [4]⟩

/-- C8, as stated, fails at capacity 0: `NewBlockingQueue(0)` returns a queue whose
`putIndex` and `takeIndex` (both 0) are not below the capacity, the slot at `putIndex` is
out of range and `Put` panics. -/
theorem index_not_below_capacity_zero :
    ¬ ((NewBlockingQueue 0).putIndex < ((0 : Nat) : Int)) ∧
    ¬ ((NewBlockingQueue 0).takeIndex < ((0 : Nat) : Int)) ∧
    slot (NewBlockingQueue 0).items (NewBlockingQueue 0).putIndex = none ∧
    (NewBlockingQueue 0).Put [1] = none := by
  decide

/-- C8, amended.  For every capacity greater than 0 and every sequence of `Put`s and
`Take`s that returns, in the state reached (the initial state included)
`0 ≤ putIndex < capacity` and `0 ≤ takeIndex < capacity`, the slot accesses
`items[putIndex]` and `items[takeIndex]` are in range, and neither `Put` nor `Take`
panics. -/
theorem indices_below_capacity (capacity : Nat) (hc : 0 < capacity) (ops : List Op)
    (q : blockingQueue) (out : List Bytes)
    (hr : (NewBlockingQueue capacity).run ops = some (q, out)) :
    (0 ≤ q.putIndex ∧ q.putIndex < (capacity : Int)) ∧
    (0 ≤ q.takeIndex ∧ q.takeIndex < (capacity : Int)) ∧
    (slot q.items q.putIndex).isSome = true ∧
    (slot q.items q.takeIndex).isSome = true ∧
    (∀ item, (q.Put item).isSome = true) ∧
    q.Take ≠ TakeResult.panicked := by
  obtain ⟨t, n, hring⟩ := run_ring ops _ q 0 0 out (Ring_new capacity hc) hr
  have hp : (t + n) % capacity < capacity := Nat.mod_lt _ hc
  have ht := hring.take_lt
  refine ⟨?_, ?_, ?_, ?_, ?_, ?_⟩
  · rw [hring.put_eq]
    omega
  · rw [hring.take_eq]
    omega
  · rw [hring.put_eq, slot_natCast, List.getElem?_eq_getElem (by rw [hring.len]; exact hp)]
    rfl
  · rw [hring.take_eq, slot_natCast, List.getElem?_eq_getElem (by rw [hring.len]; exact ht)]
    rfl
  · intro item
    obtain ⟨_, _, hput, _⟩ := Ring_put hring item
    rw [hput]
    rfl
  · cases n with
    | zero =>
      have h0 : q.count = 0 := by rw [hring.count_eq]; rfl
      simp [blockingQueue.Take, h0]
    | succ n =>
      obtain ⟨_, _, htake, _⟩ := Ring_take hring
      rw [htake]
      simp

/-- Witness of C8 (amended): capacity 1, overfilled by a second `Put`. -/
theorem indices_below_capacity_witness :
    0 < 1 ∧
    (NewBlockingQueue 1).run [Op.put [1], Op.put [2]]
        = some ({ items := [[1, 2]], count := 2, takeIndex := 0, putIndex := 0 }, []) ∧
    ((0 ≤ (0 : Int) ∧ (0 : Int) < ((1 : Nat) : Int)) ∧
     (0 ≤ (0 : Int) ∧ (0 : Int) < ((1 : Nat) : Int)) ∧
     (slot [[1, 2]] 0).isSome = true ∧
     (slot [[1, 2]] 0).isSome = true ∧
     (∀ item, ((blockingQueue.mk [[1, 2]] 2 0 0).Put item).isSome = true) ∧
     (blockingQueue.mk [[1, 2]] 2 0 0).Take ≠ TakeResult.panicked) :=
  ⟨by decide, by decide,
    indices_below_capacity 1 (by decide) [Op.put [1], Op.put [2]]
      { items := [[1, 2]], count := 2, takeIndex := 0, putIndex := 0 } [] (by decide)⟩

/-! ## The asynchronous writer: claims C1, C2, C4, C9, C10 -/

/-- The forwarded payloads of two runs of calls. -/
theorem forwarded_append (a b : List Effect) : forwarded (a ++ b) = forwarded a ++ forwarded b := by
  induction a with
  | nil => rfl
  | cons e a ih =>
    cases e <;> simp [forwarded, ih]

/-- Without filter and encoder an iteration forwards exactly its payload. -/
theorem forwarded_deliver (ref : Writer) (hF : ref.Filter = none) (hE : ref.Encoder = none)
    (p : Bytes) : forwarded (asyncWriter.deliver ref p) = [p] := by
  unfold asyncWriter.deliver
  rw [hF, hE]
  simp only [Bool.false_eq_true, if_false]
  cases (ref.Write p).2 <;> simp [forwarded]

/-- The invariant holds at the start. -/
theorem System.Inv_init (ref : Writer) : (System.init ref).Inv ref 0 0 := by
  refine ⟨Ring_new 256 (by decide), by omega, by simp [System.init], rfl, ?_⟩
  intro _ _
  simp [System.init, NewAsyncWriter, pending_new, forwarded]

/-- Every step returns and keeps the invariant. -/
theorem System.step_inv {s : System} {ref : Writer} {t n : Nat} (h : s.Inv ref t n)
    (e : Event) :
    ∃ s' t' n', s.step e = some s' ∧ s'.Inv ref t' n' := by
  cases e with
  | start =>
    refine ⟨_, t, n, rfl, ?_⟩
    have hw : s.w.Start.1.queue = s.w.queue ∧ s.w.Start.1.ref = s.w.ref := by
      unfold asyncWriter.Start
      split <;> exact ⟨rfl, rfl⟩
    refine ⟨?_, h.bound, h.room, ?_, ?_⟩
    · simp only [hw.1]
      exact h.ring
    · simp only [hw.2]
      exact h.ref_eq
    · simp only [hw.1]
      exact h.order
  | enter p =>
    simp only [System.step]
    cases hp : s.producer with
    | some p0 => exact ⟨s, t, n, rfl, h⟩
    | none =>
      simp only
      split
      · exact ⟨s, t, n, rfl, h⟩
      · next hcap =>
        refine ⟨_, t, n, rfl, h.ring, h.bound, ?_, h.ref_eq, h.order⟩
        intro _
        unfold blockingQueue.RemainCapacity at hcap
        rw [h.ring.count_eq, h.ring.len] at hcap
        omega
  | put =>
    simp only [System.step]
    cases hp : s.producer with
    | none => exact ⟨s, t, n, rfl, h⟩
    | some p =>
      have hn : n < 240 := h.room (by rw [hp]; rfl)
      obtain ⟨buf, hbuf, hput, hring⟩ := Ring_put h.ring p
      have hb : buf = [] := by
        have := Ring_put_free h.ring (by omega : n < 256)
        rw [hbuf] at this
        exact Option.some.inj this
      subst hb
      simp only [List.nil_append] at hput hring
      simp only [hput]
      refine ⟨_, t, n + 1, rfl, hring, by omega, by simp, h.ref_eq, ?_⟩
      intro hF hE
      simp only
      rw [pending_put h.ring hring (by omega) p rfl, ← h.order hF hE]
      simp
  | take =>
    simp only [System.step]
    split
    · exact ⟨s, t, n, rfl, h⟩
    · next hw =>
      have hwn : s.worker = none := by
        cases hw' : s.worker with
        | none => rfl
        | some d => simp [hw'] at hw
      cases n with
      | zero =>
        have h0 : s.w.queue.count = 0 := by rw [h.ring.count_eq]; rfl
        refine ⟨s, t, 0, ?_, h⟩
        simp [blockingQueue.Take, h0]
      | succ n =>
        obtain ⟨data, hdata, htake, hring⟩ := Ring_take h.ring
        simp only [htake]
        refine ⟨_, (t + 1) % 256, n, rfl, hring, by have := h.bound; omega, ?_, h.ref_eq, ?_⟩
        · intro hp
          have := h.room hp
          omega
        · intro hF hE
          simp only
          rw [← h.order hF hE, pending_take h.ring hring (by have := h.bound; omega) data hdata rfl,
            hwn]
          simp
  | forward =>
    simp only [System.step]
    cases hw : s.worker with
    | none => exact ⟨s, t, n, rfl, h⟩
    | some p =>
      refine ⟨_, t, n, rfl, h.ring, h.bound, h.room, h.ref_eq, ?_⟩
      intro hF hE
      simp only
      rw [← h.order hF hE, hw, forwarded_append, h.ref_eq, forwarded_deliver ref hF hE]
      simp

/-- Every interleaving returns and keeps the invariant. -/
theorem System.run_inv {ref : Writer} :
    ∀ (events : List Event) (s : System) (t n : Nat), s.Inv ref t n →
    ∃ s' t' n', s.run events = some s' ∧ s'.Inv ref t' n' := by
  intro events
  induction events with
  | nil =>
    intro s t n h
    exact ⟨s, t, n, rfl, h⟩
  | cons e events ih =>
    intro s t n h
    obtain ⟨s1, t1, n1, hs, h1⟩ := System.step_inv h e
    obtain ⟨s2, t2, n2, hr, h2⟩ := ih s1 t1 n1 h1
    exact ⟨s2, t2, n2, by simp only [System.run, hs, hr], h2⟩

/-- The two steps of a producer, taken one after the other on a system whose writer lock
is free, leave the writer that `Write` returns. -/
theorem System.enter_put_eq_Write (s : System) (p : Bytes) (h : s.producer = none) :
    (s.run [Event.enter p, Event.put]).map (fun s' => s'.w)
      = (s.w.Write p).map (fun r => r.2) := by
  by_cases hcap : s.w.queue.RemainCapacity ≤ 16
  · simp [System.run, System.step, h, asyncWriter.Write, hcap]
  · simp only [System.run, System.step, h, asyncWriter.Write, hcap, if_false]
    cases s.w.queue.Put p <;> rfl

/-- C1.  Drop policy of `Write`: whenever `RemainCapacity() ≤ 16`, `Write(p)` returns
`(0, nil)` and the writer, its queue included, is exactly as before. -/
theorem Write_drops (w : asyncWriter) (p : Bytes) (h : w.queue.RemainCapacity ≤ 16) :
    w.Write p = some ((0, none), w) := by
  unfold asyncWriter.Write
  rw [if_pos h]

set_option maxRecDepth 100000 in
/-- Witness of C1: capacity 256 with 245 payloads queued, remaining capacity 11. -/
theorem Write_drops_witness :
    (NewBlockingQueue 256).run (List.replicate 245 (Op.put [7])) = some (queue245, []) ∧
    queue245.RemainCapacity = 11 ∧
    (asyncWriter.mk sink queue245 true).Write [1, 2, 3]
      = some ((0, none), asyncWriter.mk sink queue245 true) :=
  ⟨by decide, by decide, Write_drops (asyncWriter.mk sink queue245 true) [1, 2, 3] (by decide)⟩

/-- C2.  Accept path of `Write`, in every state `s.w` of the writer that an interleaving
of `Start`, `Write` and worker steps reaches: `Write(p)` returns, with a nil error; and
when `RemainCapacity() > 16` it calls `Put`, which returns, `count` grows by exactly 1,
`p` sits alone in the slot at the old `putIndex` and is the newest queued payload, and
the result is `(len(p), nil)`. -/
theorem Write_accepts (ref : Writer) (events : List Event) (s : System)
    (hr : (System.init ref).run events = some s) (p : Bytes) :
    (∃ r w', s.w.Write p = some (r, w') ∧ r.2 = none) ∧
    (16 < s.w.queue.RemainCapacity →
      ∃ q', s.w.queue.Put p = some q' ∧
        s.w.Write p = some (((p.length : Int), none), { s.w with queue := q' }) ∧
        q'.count = s.w.queue.count + 1 ∧
        slot q'.items s.w.queue.putIndex = some p ∧
        q'.pending = s.w.queue.pending ++ [p]) := by
  obtain ⟨s', t, n, hr', hinv⟩ := System.run_inv events _ 0 0 (System.Inv_init ref)
  rw [hr] at hr'
  cases Option.some.inj hr'
  have hring := hinv.ring
  have hn : n < 256 := by have := hinv.bound; omega
  obtain ⟨buf, hbuf, hput, hring'⟩ := Ring_put hring p
  have hb : buf = [] := by
    have := Ring_put_free hring hn
    rw [hbuf] at this
    exact Option.some.inj this
  subst hb
  simp only [List.nil_append] at hput hring'
  have hplt : (t + n) % 256 < s.w.queue.items.length := by
    rw [hring.len]; exact Nat.mod_lt _ (by decide)
  constructor
  · unfold asyncWriter.Write
    split
    · exact ⟨_, _, rfl, rfl⟩
    · rw [hput]
      exact ⟨_, _, rfl, rfl⟩
  · intro hcap
    refine ⟨_, hput, ?_, ?_, ?_, ?_⟩
    · unfold asyncWriter.Write
      rw [if_neg (by omega), hput]
    · simp only [hring.count_eq]
    · simp only [hring.put_eq]
      exact slot_set_self _ _ _ hplt
    · exact pending_put hring hring' hn p rfl

set_option maxRecDepth 100000 in
/-- Witness of C2: after one accepted `Write` of `[1]`, a `Write` of `[2]`. -/
theorem Write_accepts_witness :
    ∃ s, (System.init sink).run [Event.enter [1], Event.put] = some s ∧
      s.w.queue.pending = [[1]] ∧
      16 < s.w.queue.RemainCapacity ∧
      (∃ r w', s.w.Write [2] = some (r, w') ∧ r.2 = none) ∧
      ∃ q', s.w.queue.Put [2] = some q' ∧
        s.w.Write [2] = some (((([2] : Bytes).length : Int), none), { s.w with queue := q' }) ∧
        q'.count = s.w.queue.count + 1 ∧
        slot q'.items s.w.queue.putIndex = some [2] ∧
        q'.pending = s.w.queue.pending ++ [[2]] :=
  ⟨_, rfl, by decide, by decide,
    (Write_accepts sink [Event.enter [1], Event.put] _ rfl [2]).1,
    (Write_accepts sink [Event.enter [1], Event.put] _ rfl [2]).2 (by decide)⟩

/-- C4.  Delivery order: with a downstream writer that has neither filter nor encoder,
every interleaving of `Start`, `Write` (test, then `Put`) and worker steps (`Take`, then
the rest of the iteration) runs without a panic, and the payloads forwarded to the
downstream `Write`, followed by the payload in the hands of the worker and by the queued
payloads, are exactly the payloads `Write` handed to `Put`, in that order; so the
forwarded payloads are a prefix of the enqueued ones. -/
theorem delivery_in_order (ref : Writer) (hF : ref.Filter = none) (hE : ref.Encoder = none)
    (events : List Event) :
    ∃ s, (System.init ref).run events = some s ∧
      forwarded s.effects ++ s.worker.toList ++ s.w.queue.pending = s.enqueued ∧
      forwarded s.effects <+: s.enqueued := by
  obtain ⟨s, t, n, hr, hinv⟩ := System.run_inv events _ 0 0 (System.Inv_init ref)
  refine ⟨s, hr, hinv.order hF hE, ?_⟩
  rw [← hinv.order hF hE, List.append_assoc]
  exact List.prefix_append _ _

set_option maxRecDepth 100000 in
/-- Witness of C4: two payloads written, the first taken and forwarded before the second
is put. -/
theorem delivery_in_order_witness :
    sink.Filter = none ∧ sink.Encoder = none ∧
    ((System.init sink).run [Event.start, Event.enter [1], Event.put, Event.take,
        Event.enter [2], Event.forward, Event.put]).map
      (fun s => (forwarded s.effects, s.enqueued)) = some ([[1]], [[1], [2]]) ∧
    ∃ s, (System.init sink).run [Event.start, Event.enter [1], Event.put, Event.take,
        Event.enter [2], Event.forward, Event.put] = some s ∧
      forwarded s.effects ++ s.worker.toList ++ s.w.queue.pending = s.enqueued ∧
      forwarded s.effects <+: s.enqueued :=
  ⟨rfl, rfl, by decide,
    delivery_in_order sink rfl rfl [Event.start, Event.enter [1], Event.put, Event.take,
        Event.enter [2], Event.forward, Event.put]⟩

/-- C9.  One iteration of the worker on the payload `p` that `Take` returned:
(1) when the downstream writer has a filter and it says drop, nothing is encoded, written
or reported; (2) otherwise, when it has an encoder and encoding `p` fails, the error is
reported and nothing is written; (3) otherwise the downstream `Write` is called exactly
once, with the encoded bytes (with `p` itself when there is no encoder), and an error it
returns is reported.  In every case the loop goes on with the queue that `Take` left,
from which the payload is gone, at the next `Take`. -/
theorem worker_iteration (w : asyncWriter) (p : Bytes) (q : blockingQueue) (fuel : Nat)
    (hTake : w.queue.Take = TakeResult.returned p q) :
    (∀ f, w.ref.Filter = some f → f p = true → asyncWriter.deliver w.ref p = []) ∧
    (∀ e err, (∀ f, w.ref.Filter = some f → f p = false) →
      w.ref.Encoder = some e → e p = Except.error err →
      asyncWriter.deliver w.ref p =
        [Effect.encode p, Effect.report "async writer encode error: %v" err]) ∧
    (∀ e encoded, (∀ f, w.ref.Filter = some f → f p = false) →
      w.ref.Encoder = some e → e p = Except.ok encoded →
      asyncWriter.deliver w.ref p = Effect.encode p :: Effect.write encoded ::
        (match (w.ref.Write encoded).2 with
         | none => []
         | some err => [Effect.report "async writer write error: %v" err])) ∧
    ((∀ f, w.ref.Filter = some f → f p = false) → w.ref.Encoder = none →
      asyncWriter.deliver w.ref p = Effect.write p ::
        (match (w.ref.Write p).2 with
         | none => []
         | some err => [Effect.report "async writer write error: %v" err])) ∧
    q.count = w.queue.count - 1 ∧
    w.startWorker (fuel + 1) =
      (match asyncWriter.startWorker { w with queue := q } fuel with
       | none => none
       | some (w', effects, waiting) =>
         some (w', asyncWriter.deliver w.ref p ++ effects, waiting)) := by
  have hfilter : (∀ f, w.ref.Filter = some f → f p = false) →
      (match w.ref.Filter with | none => false | some f => f p) = false := by
    intro hkeep
    cases hf : w.ref.Filter with
    | none => rfl
    | some f => exact hkeep f hf
  refine ⟨?_, ?_, ?_, ?_, ?_, ?_⟩
  · intro f hf hdrop
    simp [asyncWriter.deliver, hf, hdrop]
  · intro e err hkeep he herr
    simp [asyncWriter.deliver, hfilter hkeep, he, herr]
  · intro e encoded hkeep he hok
    unfold asyncWriter.deliver
    rw [hfilter hkeep, he]
    simp only [Bool.false_eq_true, if_false, hok]
    cases (w.ref.Write encoded).2 <;> rfl
  · intro hkeep he
    unfold asyncWriter.deliver
    rw [hfilter hkeep, he]
    simp only [Bool.false_eq_true, if_false]
    cases (w.ref.Write p).2 <;> rfl
  · unfold blockingQueue.Take at hTake
    split at hTake
    · cases hTake
    · split at hTake
      · cases hTake
      · cases hTake
        rfl
  · simp only [asyncWriter.startWorker, hTake]

/-- Witness of C9: a queue holding the payloads `[5]` and `[]` in front of the writer
`picky`; the payload `[5]` passes the filter, is encoded and is written once. -/
theorem worker_iteration_witness :
    (asyncWriter.mk picky ⟨[[5], []], 2, 0, 0⟩ true).queue.Take
      = TakeResult.returned [5] ⟨[[], []], 1, 1, 0⟩ ∧
    asyncWriter.deliver picky [5] = Effect.encode [5] :: Effect.write [5, 10] ::
        (match (picky.Write [5, 10]).2 with
         | none => []
         | some err => [Effect.report "async writer write error: %v" err]) ∧
    (blockingQueue.mk [[], []] 1 1 0).count = (blockingQueue.mk [[5], []] 2 0 0).count - 1 ∧
    (asyncWriter.mk picky ⟨[[5], []], 2, 0, 0⟩ true).startWorker 3 =
      (match (asyncWriter.mk picky ⟨[[], []], 1, 1, 0⟩ true).startWorker 2 with
       | none => none
       | some (w', effects, waiting) =>
         some (w', asyncWriter.deliver picky [5] ++ effects, waiting)) ∧
    ((asyncWriter.mk picky ⟨[[5], []], 2, 0, 0⟩ true).startWorker 3).map (fun r => r.2)
      = some ([Effect.encode [5], Effect.write [5, 10], Effect.encode [], Effect.write [10],
          Effect.report "async writer write error: %v" "short write"], true) ∧
    asyncWriter.deliver picky [0, 1] = [] ∧
    asyncWriter.deliver picky [9]
      = [Effect.encode [9], Effect.report "async writer encode error: %v" "bad payload"] ∧
    asyncWriter.deliver sink [5] = [Effect.write [5]] :=
  ⟨by decide,
    (worker_iteration (asyncWriter.mk picky ⟨[[5], []], 2, 0, 0⟩ true) [5]
      ⟨[[], []], 1, 1, 0⟩ 2 (by decide)).2.2.1 _ [5, 10]
      (fun f hf => by
        have h2 : (fun b : Bytes => b.head? == some 0) = f := Option.some.inj hf
        subst h2
        rfl)
      rfl rfl,
    (worker_iteration (asyncWriter.mk picky ⟨[[5], []], 2, 0, 0⟩ true) [5]
      ⟨[[], []], 1, 1, 0⟩ 2 (by decide)).2.2.2.2.1,
    (worker_iteration (asyncWriter.mk picky ⟨[[5], []], 2, 0, 0⟩ true) [5]
      ⟨[[], []], 1, 1, 0⟩ 2 (by decide)).2.2.2.2.2,
    by decide, by decide, by decide, by decide⟩

/-- C10.  `Start` is idempotent: on a writer that is not started it sets `isStarted` and
launches one worker; on a started writer it changes nothing and launches nothing; so over
`k` calls in a row at most one worker is launched, a started writer stays as it is, and
after at least one call the writer is started.  `Write` leaves `isStarted` as it is. -/
theorem Start_idempotent (w : asyncWriter) (k : Nat) :
    (w.isStarted = false → w.Start = ({ w with isStarted := true }, 1)) ∧
    (w.isStarted = true → w.Start = (w, 0)) ∧
    (w.startTimes k).2 ≤ 1 ∧
    (w.isStarted = true → w.startTimes k = (w, 0)) ∧
    (w.isStarted = false → 0 < k →
      w.startTimes k = ({ w with isStarted := true }, 1)) ∧
    (0 < k → (w.startTimes k).1.isStarted = true) ∧
    (∀ p r w', w.Write p = some (r, w') → w'.isStarted = w.isStarted) := by
  have hstarted : ∀ (k : Nat) (v : asyncWriter), v.isStarted = true → v.startTimes k = (v, 0) := by
    intro k
    induction k with
    | zero => intro v _; rfl
    | succ k ih =>
      intro v hv
      have hs : v.Start = (v, 0) := by simp [asyncWriter.Start, hv]
      simp only [asyncWriter.startTimes, hs, ih v hv]
  have hfresh : ∀ (k : Nat) (v : asyncWriter), v.isStarted = false → 0 < k →
      v.startTimes k = ({ v with isStarted := true }, 1) := by
    intro k v hv hk
    cases k with
    | zero => omega
    | succ k =>
      have hs : v.Start = ({ v with isStarted := true }, 1) := by simp [asyncWriter.Start, hv]
      simp only [asyncWriter.startTimes, hs, hstarted k { v with isStarted := true } rfl]
  refine ⟨fun h => by simp [asyncWriter.Start, h], fun h => by simp [asyncWriter.Start, h],
    ?_, hstarted k w, hfresh k w, ?_, ?_⟩
  · cases hw : w.isStarted with
    | true => rw [hstarted k w hw]; omega
    | false =>
      cases k with
      | zero => simp [asyncWriter.startTimes]
      | succ k => rw [hfresh (k + 1) w hw (by omega)]
  · intro hk
    cases hw : w.isStarted with
    | true => rw [hstarted k w hw]; exact hw
    | false => rw [hfresh k w hw hk]
  · intro p r w' hW
    unfold asyncWriter.Write at hW
    split at hW
    · cases hW
      rfl
    · cases hPut : w.queue.Put p with
      | none => simp [hPut] at hW
      | some q1 =>
        simp only [hPut, Option.some.injEq, Prod.mk.injEq] at hW
        rw [← hW.2]

/-- Witness of C10: three calls of `Start` on a new writer. -/
theorem Start_idempotent_witness :
    (NewAsyncWriter sink).isStarted = false ∧ 0 < 3 ∧
    (NewAsyncWriter sink).Start = ({ NewAsyncWriter sink with isStarted := true }, 1) ∧
    (NewAsyncWriter sink).startTimes 3 = ({ NewAsyncWriter sink with isStarted := true }, 1) ∧
    ((NewAsyncWriter sink).startTimes 3).1.isStarted = true :=
  ⟨rfl, by decide, (Start_idempotent (NewAsyncWriter sink) 3).1 rfl,
    (Start_idempotent (NewAsyncWriter sink) 3).2.2.2.2.1 rfl (by decide),
    (Start_idempotent (NewAsyncWriter sink) 3).2.2.2.2.2.1 (by decide)⟩

/-! ## The pattern encoder: claims C11 to C20 -/

/-- The string `"="` is the byte 61. -/
theorem str_equals : str "=" = [61] := by decide

/-- What the fields converter writes for a list of fields that is not empty, before the
truncation. -/
theorem foldl_writeField (fields : List (Bytes × Bytes × Bool)) (h : fields ≠ []) :
    ∀ buf : Bytes, fields.foldl writeField buf =
      buf ++ List.intercalate [32] (fields.map fun f => f.1 ++ [61] ++ f.2.1) ++ [32] := by
  induction fields with
  | nil => exact absurd rfl h
  | cons f rest ih =>
    intro buf
    cases rest with
    | nil => simp [writeField, str_equals, List.intercalate]
    | cons g rest =>
      rw [List.foldl_cons, ih (by simp) (writeField buf f)]
      simp [writeField, str_equals, List.intercalate, List.append_assoc]

/-- Truncating by one a buffer that ends in one more byte. -/
theorem Truncate_append_one (buf : Bytes) (b : UInt8) :
    Truncate (buf ++ [b]) (((buf ++ [b]).length : Int) - 1) = some buf := by
  unfold Truncate
  have h1 : ¬ ((((buf ++ [b]).length : Int) - 1 < 0) ∨
      (((buf ++ [b]).length : Int) < ((buf ++ [b]).length : Int) - 1)) := by
    simp only [List.length_append, List.length_singleton]
    push_cast
    omega
  rw [if_neg h1]
  have h2 : (((buf ++ [b]).length : Int) - 1).toNat = buf.length := by
    simp only [List.length_append, List.length_singleton]
    push_cast
    omega
  rw [h2, List.take_left]

/-- C14.  For an event with at least one field, the fields converter appends to the buffer
exactly the fields as `key=value`, in the order of the event, with one space between two
fields and none after the last. -/
theorem fields_format (e : LogEvent) (buf : Bytes) (h : e.Fields ≠ []) :
    fieldsConverter.Convert (some e) buf =
      some (buf ++ List.intercalate [32] (e.Fields.map fun f => f.1 ++ [61] ++ f.2.1)) := by
  unfold fieldsConverter.Convert
  simp only
  rw [foldl_writeField e.Fields h buf]
  exact Truncate_append_one _ 32

/-- Witness of C14: the fields `a="1"`, `b="2"` append `a=1 b=2`. -/
theorem fields_format_witness :
    (event Level.InfoLevel (str "INFO") (str "hello")
        [(str "a", str "1", true), (str "b", str "2", true)]).Fields ≠ [] ∧
    fieldsConverter.Convert (some (event Level.InfoLevel (str "INFO") (str "hello")
        [(str "a", str "1", true), (str "b", str "2", true)])) (str "x ")
      = some (str "x a=1 b=2") ∧
    fieldsConverter.Convert (some (event Level.InfoLevel (str "INFO") (str "hello")
        [(str "a", str "1", true), (str "b", str "2", true)])) (str "x ") =
      some (str "x " ++ List.intercalate [32]
        ((event Level.InfoLevel (str "INFO") (str "hello")
          [(str "a", str "1", true), (str "b", str "2", true)]).Fields.map
            fun f => f.1 ++ [61] ++ f.2.1)) :=
  ⟨by decide, by decide,
    fields_format (event Level.InfoLevel (str "INFO") (str "hello")
      [(str "a", str "1", true), (str "b", str "2", true)]) (str "x ") (by decide)⟩

/-- C11, the failing input.  An encoder whose chain is the fields converter alone, on an
event with no fields: `Truncate(-1)` panics inside `Encode`.  After a message and a
literal space the same truncation removes the space, so the result is not the
concatenation of what the converters wrote. -/
theorem Encode_fields_on_no_fields :
    (patternEncoder.mk [] (Converter.fields Converter.nil)).Encode ansi
        (event Level.InfoLevel (str "INFO") (str "hello") []) = none ∧
    (patternEncoder.mk []
        (Converter.message (Converter.literal (str " ") (Converter.fields Converter.nil)))).Encode
        ansi (event Level.InfoLevel (str "INFO") (str "hello") [])
      = some ((str "hello\n", none), patternEncoder.mk []
        (Converter.message (Converter.literal (str " ") (Converter.fields Converter.nil)))) ∧
    (patternEncoder.mk []
        (Converter.level (Converter.literal (str " ") (Converter.message Converter.nil)))).Encode
        ansi (event Level.InfoLevel (str "INFO") (str "hello") [])
      = some ((str "INFO hello\n", none), patternEncoder.mk []
        (Converter.level (Converter.literal (str " ") (Converter.message Converter.nil)))) := by
  decide

/-- C12.  A colour converter whose first option is a name of `colorMap` around a single
level converter appends the outer colour code, the colour code of the level of the event,
the level text, a reset and a second reset. -/
theorem color_wraps_level (env : Env) (c : Bytes) (more : List Bytes) (next : Converter)
    (e : LogEvent) (buf : Bytes) (outer inner : Int)
    (hc : colorMap env c = some outer) (hl : levelColorMap env e.LevelInt = some inner) :
    (Converter.color (c :: more) (Converter.level Converter.nil) next).Convert env (some e) buf
      = some (buf ++ ([27, 91] ++ Itoa outer ++ [109]) ++ ([27, 91] ++ Itoa inner ++ [109])
          ++ e.Level ++ [27, 91, 48, 109] ++ [27, 91, 48, 109]) := by
  simp [Converter.Convert, colorConverter.Convert, colorConverter.outer,
    colorConverter.children, levelConverter.Convert, writeColor, writeColorEnd, hc, hl]

/-- Witness of C12: option `cyan` (36), level ERROR (red, 31). -/
theorem color_wraps_level_witness :
    colorMap ansi (str "cyan") = some 36 ∧
    levelColorMap ansi (event Level.ErrorLevel (str "ERROR") (str "boom") []).LevelInt
      = some 31 ∧
    (Converter.color [str "cyan"] (Converter.level Converter.nil) Converter.nil).Convert ansi
        (some (event Level.ErrorLevel (str "ERROR") (str "boom") [])) []
      = some ([] ++ ([27, 91] ++ Itoa 36 ++ [109]) ++ ([27, 91] ++ Itoa 31 ++ [109])
          ++ (event Level.ErrorLevel (str "ERROR") (str "boom") []).Level
          ++ [27, 91, 48, 109] ++ [27, 91, 48, 109]) ∧
    ([] ++ ([27, 91] ++ Itoa 36 ++ [109]) ++ ([27, 91] ++ Itoa 31 ++ [109])
          ++ (event Level.ErrorLevel (str "ERROR") (str "boom") []).Level
          ++ [27, 91, 48, 109] ++ [27, 91, 48, 109] : Bytes)
      = [27, 91, 51, 54, 109, 27, 91, 51, 49, 109, 69, 82, 82, 79, 82, 27, 91, 48, 109,
          27, 91, 48, 109] :=
  ⟨by decide, by decide,
    color_wraps_level ansi (str "cyan") [] Converter.nil
      (event Level.ErrorLevel (str "ERROR") (str "boom") []) [] 36 31 (by decide) (by decide),
    by decide⟩

/-- C13, as stated, fails: with the option `cyan` around a level converter followed by a
message converter, on an ERROR event with message `boom`, the output is the cyan code, the
red code, `ERROR`, a reset, `boom`, a reset; the cyan code is not written again before
`boom`. -/
theorem outer_colour_not_resumed :
    (Converter.color [str "cyan"] (Converter.level (Converter.message Converter.nil))
        Converter.nil).Convert ansi
        (some (event Level.ErrorLevel (str "ERROR") (str "boom") [])) []
      = some [27, 91, 51, 54, 109, 27, 91, 51, 49, 109, 69, 82, 82, 79, 82, 27, 91, 48, 109,
          98, 111, 111, 109, 27, 91, 48, 109] ∧
    ¬ (([27, 91, 51, 54, 109] ++ str "boom" : Bytes) <:+:
        [27, 91, 51, 54, 109, 27, 91, 51, 49, 109, 69, 82, 82, 79, 82, 27, 91, 48, 109,
          98, 111, 111, 109, 27, 91, 48, 109]) ∧
    (([27, 91, 48, 109] ++ str "boom" : Bytes) <:+:
        [27, 91, 51, 54, 109, 27, 91, 51, 49, 109, 69, 82, 82, 79, 82, 27, 91, 48, 109,
          98, 111, 111, 109, 27, 91, 48, 109]) := by
  decide

/-- The loop of a colour converter hands the scratch buffer as it is to a child that is not
a level converter, and goes on with the converter linked after it. -/
theorem colorConverter.children_default (env : Env) (e : LogEvent) (c : Converter)
    (b : Bytes) (hc : c ≠ Converter.nil) (hl : c.isLevel = false) :
    colorConverter.children env e c b
      = (c.Convert env (some e) b).bind (colorConverter.children env e c.Next) := by
  cases c with
  | nil => exact absurd rfl hc
  | level next => simp [Converter.isLevel] at hl
  | literal text next =>
    simp [colorConverter.children, Converter.Convert, Converter.Next]
  | color opts child next =>
    simp only [colorConverter.children, Converter.Convert, colorConverter.Convert,
      Converter.Next]
    cases colorConverter.children env e child (colorConverter.outer env opts) <;> rfl
  | date opt child next =>
    simp only [colorConverter.children, Converter.Convert, Converter.Next]
    cases logDateConverter.Convert env opt (some e) b <;> rfl
  | logger opt next =>
    simp only [colorConverter.children, Converter.Convert, Converter.Next]
    cases loggerConverter.Convert opt (some e) b <;> rfl
  | message next =>
    simp only [colorConverter.children, Converter.Convert, Converter.Next]
    cases messageConverter.Convert (some e) b <;> rfl
  | fields next =>
    simp only [colorConverter.children, Converter.Convert, Converter.Next]
    cases fieldsConverter.Convert (some e) b <;> rfl

/-- The loop of a colour converter at a level converter: the level segment is appended to
the scratch buffer and the loop goes on with the converter linked after it. -/
theorem colorConverter.children_level (env : Env) (e : LogEvent) (rest : Converter)
    (b : Bytes) :
    colorConverter.children env e (Converter.level rest) b
      = colorConverter.children env e rest (b ++ colorConverter.levelSegment env e) := by
  simp [colorConverter.children, levelConverter.Convert, writeColor, writeColorEnd,
    colorConverter.levelSegment, List.append_assoc]

/-- The loop of a colour converter over literal, logger and message converters appends what
they write. -/
theorem colorConverter.children_plain (env : Env) (e : LogEvent) :
    ∀ (rest : Converter) (b : Bytes), rest.plain = true →
      colorConverter.children env e rest b = some (b ++ rest.plainOutput e) := by
  intro rest
  induction rest with
  | nil => intro b _; simp [colorConverter.children, Converter.plainOutput]
  | literal text next ih =>
    intro b h
    simp only [Converter.plain] at h
    simp [colorConverter.children, Converter.plainOutput, ih _ h, List.append_assoc]
  | color opts child next _ _ => intro b h; simp [Converter.plain] at h
  | level next _ => intro b h; simp [Converter.plain] at h
  | date opt child next _ _ => intro b h; simp [Converter.plain] at h
  | logger opt next ih =>
    intro b h
    simp only [Converter.plain] at h
    by_cases hm : e.Logger.length = 0
    · simp [colorConverter.children, loggerConverter.Convert, Converter.plainOutput, ih _ h,
        hm, List.append_assoc]
    · simp [colorConverter.children, loggerConverter.Convert, Converter.plainOutput, ih _ h,
        hm, List.append_assoc]
  | message next ih =>
    intro b h
    simp only [Converter.plain] at h
    by_cases hm : e.Message.length = 0
    · simp [colorConverter.children, messageConverter.Convert, Converter.plainOutput,
        ih _ h, hm, List.append_assoc]
    · simp [colorConverter.children, messageConverter.Convert, Converter.plainOutput,
        ih _ h, hm, List.append_assoc]
  | fields next _ => intro b h; simp [Converter.plain] at h

/-- The loop of a colour converter over one chain linked after another: the loop over the
first, then the loop over the second on the scratch buffer the first leaves. -/
theorem colorConverter.children_append (env : Env) (e : LogEvent) (d : Converter) :
    ∀ (c : Converter) (b : Bytes),
      colorConverter.children env e (c.append d) b
        = (colorConverter.children env e c b).bind (colorConverter.children env e d) := by
  intro c
  induction c with
  | nil => intro b; simp [Converter.append, colorConverter.children]
  | literal text next ih =>
    intro b
    simp only [Converter.append, colorConverter.children]
    exact ih _
  | color opts child next _ ih =>
    intro b
    simp only [Converter.append, colorConverter.children]
    cases colorConverter.children env e child (colorConverter.outer env opts) with
    | none => rfl
    | some inner => exact ih _
  | level next ih =>
    intro b
    simp only [Converter.append, colorConverter.children, levelConverter.Convert]
    exact ih _
  | date opt child next _ ih =>
    intro b
    simp only [Converter.append, colorConverter.children]
    cases logDateConverter.Convert env opt (some e) b with
    | none => rfl
    | some b1 => exact ih _
  | logger opt next ih =>
    intro b
    simp only [Converter.append, colorConverter.children]
    cases loggerConverter.Convert opt (some e) b with
    | none => rfl
    | some b1 => exact ih _
  | message next ih =>
    intro b
    simp only [Converter.append, colorConverter.children]
    cases messageConverter.Convert (some e) b with
    | none => rfl
    | some b1 => exact ih _
  | fields next ih =>
    intro b
    simp only [Converter.append, colorConverter.children]
    cases fieldsConverter.Convert (some e) b with
    | none => rfl
    | some b1 => exact ih _

/-- C13, amended.  A colour converter does not write its outer colour again after a level
converter.  The loop over the children writes nothing at the end of the chain, appends the
level segment (severity colour code, level text, reset) at a level converter and goes on
with the converter linked after it, and hands the scratch buffer as it is to a converter
that is not a level converter.  So for a child chain with a level converter in it, `pre`
before it and `rest` after it, `Convert` appends to `buf` what the loop over `rest` makes of
the scratch buffer that the converters before the level converter leave (it starts with the
outer colour code) followed by the level segment, and then one reset.  When `rest` is made
of literal, logger and message converters, what they write comes right after the reset of
the level segment and right before the final reset. -/
theorem level_segment_then_rest (env : Env) (opts : List Bytes) (pre rest next : Converter)
    (e : LogEvent) (buf : Bytes) :
    (∀ scratch, colorConverter.children env e Converter.nil scratch = some scratch) ∧
    (∀ after scratch, colorConverter.children env e (Converter.level after) scratch
        = colorConverter.children env e after
            (scratch ++ colorConverter.levelSegment env e)) ∧
    (∀ (c : Converter) scratch, c ≠ Converter.nil → c.isLevel = false →
      colorConverter.children env e c scratch
        = (c.Convert env (some e) scratch).bind (colorConverter.children env e c.Next)) ∧
    (Converter.color opts (pre.append (Converter.level rest)) next).Convert env (some e) buf
      = ((colorConverter.children env e pre (colorConverter.outer env opts)).bind
          (fun before => colorConverter.children env e rest
            (before ++ colorConverter.levelSegment env e))).map
          (fun written => buf ++ (written ++ [27, 91, 48, 109])) ∧
    (rest.plain = true →
      (Converter.color opts (pre.append (Converter.level rest)) next).Convert env (some e) buf
        = (colorConverter.children env e pre (colorConverter.outer env opts)).map
            (fun before => buf ++ (before ++ colorConverter.levelSegment env e
              ++ rest.plainOutput e ++ [27, 91, 48, 109]))) := by
  have hconv : (Converter.color opts (pre.append (Converter.level rest)) next).Convert env
        (some e) buf
      = ((colorConverter.children env e pre (colorConverter.outer env opts)).bind
          (fun before => colorConverter.children env e rest
            (before ++ colorConverter.levelSegment env e))).map
          (fun written => buf ++ (written ++ [27, 91, 48, 109])) := by
    simp only [Converter.Convert, colorConverter.Convert, colorConverter.children_append]
    cases colorConverter.children env e pre (colorConverter.outer env opts) with
    | none => rfl
    | some before =>
      simp only [Option.some_bind, colorConverter.children_level]
      cases colorConverter.children env e rest
        (before ++ colorConverter.levelSegment env e) <;> simp [writeColorEnd]
  refine ⟨fun scratch => rfl,
    fun after scratch => colorConverter.children_level env e after scratch,
    fun c scratch hc hl => colorConverter.children_default env e c scratch hc hl, hconv, ?_⟩
  intro hp
  rw [hconv]
  cases colorConverter.children env e pre (colorConverter.outer env opts) with
  | none => rfl
  | some before =>
    simp only [Option.some_bind, colorConverter.children_plain env e rest _ hp]
    simp [List.append_assoc]

/-- Witness of C13, amended: the option `cyan` around the literal `[`, a level converter, the
literal `" "`, a logger converter and a message converter, on an ERROR event with the
message `boom` and no logger name, onto a buffer that holds `>`: the output is `>`,
`ESC[36m`, `[`, `ESC[31m`, `ERROR`, `ESC[0m`, then ` -boom` and `ESC[0m`.  A message
converter in the loop, which is not a level converter, appends to the scratch buffer. -/
theorem level_segment_then_rest_witness :
    (Converter.literal (str " ") (Converter.logger (-1)
        (Converter.message Converter.nil))).plain = true ∧
    (Converter.color [str "cyan"] ((Converter.literal (str "[") Converter.nil).append
        (Converter.level (Converter.literal (str " ")
          (Converter.logger (-1) (Converter.message Converter.nil))))) Converter.nil).Convert
        ansi (some (event Level.ErrorLevel (str "ERROR") (str "boom") [])) (str ">")
      = some [62, 27, 91, 51, 54, 109, 91, 27, 91, 51, 49, 109, 69, 82, 82, 79, 82,
          27, 91, 48, 109, 32, 45, 98, 111, 111, 109, 27, 91, 48, 109] ∧
    Converter.message Converter.nil ≠ Converter.nil ∧
    (Converter.message Converter.nil).isLevel = false ∧
    colorConverter.children ansi (event Level.ErrorLevel (str "ERROR") (str "boom") [])
        (Converter.message Converter.nil) [27, 91, 48, 109]
      = some [27, 91, 48, 109, 98, 111, 111, 109] :=
  ⟨by decide,
    ((level_segment_then_rest ansi [str "cyan"] (Converter.literal (str "[") Converter.nil)
        (Converter.literal (str " ") (Converter.logger (-1)
          (Converter.message Converter.nil))) Converter.nil
        (event Level.ErrorLevel (str "ERROR") (str "boom") []) (str ">")).2.2.2.2
      (by decide)).trans (by decide),
    by decide, by decide,
    ((level_segment_then_rest ansi [str "cyan"] (Converter.literal (str "[") Converter.nil)
        (Converter.literal (str " ") (Converter.logger (-1)
          (Converter.message Converter.nil))) Converter.nil
        (event Level.ErrorLevel (str "ERROR") (str "boom") []) (str ">")).2.2.1
      (Converter.message Converter.nil) [27, 91, 48, 109] (by decide) (by decide)).trans
      (by decide)⟩

/-- C15, the failing input.  The fields converter on an event with no fields and an empty
buffer calls `Truncate(-1)`, which panics; so does a colour converter with no option
around it, and `Encode` on the chain made of it. -/
theorem fields_Convert_panics_on_empty_buffer :
    (event Level.InfoLevel (str "INFO") [] []).Fields = [] ∧
    fieldsConverter.Convert (some (event Level.InfoLevel (str "INFO") [] [])) [] = none ∧
    (Converter.fields Converter.nil).Convert ansi
        (some (event Level.InfoLevel (str "INFO") [] [])) [] = none ∧
    (Converter.color [] (Converter.fields Converter.nil) Converter.nil).Convert ansi
        (some (event Level.InfoLevel (str "INFO") [] [])) (str "x") = none ∧
    (patternEncoder.mk [] (Converter.fields Converter.nil)).Encode ansi
        (event Level.InfoLevel (str "INFO") [] []) = none := by
  decide

/-- C16, the failing input.  The fields converter on an event with no fields and the
buffer `hello ` leaves `hello`: the last byte written before it is removed, and the prior
content is no prefix of the result. -/
theorem fields_Convert_removes_prior_byte :
    fieldsConverter.Convert (some (event Level.InfoLevel (str "INFO") (str "hello") []))
        (str "hello ") = some (str "hello") ∧
    ¬ (str "hello " <+: str "hello") := by
  decide

/-- C17.  The message converter appends the message of the event when it is not empty,
and the single byte `-` when it is empty. -/
theorem message_or_dash (e : LogEvent) (buf : Bytes) :
    (e.Message ≠ [] → messageConverter.Convert (some e) buf = some (buf ++ e.Message)) ∧
    (e.Message = [] → messageConverter.Convert (some e) buf = some (buf ++ [45])) := by
  constructor
  · intro h
    have hlen : e.Message.length ≠ 0 := by
      intro h0
      exact h (List.length_eq_zero.mp h0)
    simp [messageConverter.Convert, hlen]
  · intro h
    simp [messageConverter.Convert, h]

/-- Witness of C17: the message `hello`, and the empty message. -/
theorem message_or_dash_witness :
    (event Level.InfoLevel (str "INFO") (str "hello") []).Message ≠ [] ∧
    messageConverter.Convert (some (event Level.InfoLevel (str "INFO") (str "hello") []))
        (str "x ") = some (str "x " ++ str "hello") ∧
    (event Level.InfoLevel (str "INFO") [] []).Message = [] ∧
    messageConverter.Convert (some (event Level.InfoLevel (str "INFO") [] [])) (str "x ")
      = some (str "x " ++ [45]) :=
  ⟨by decide,
    (message_or_dash (event Level.InfoLevel (str "INFO") (str "hello") []) (str "x ")).1
      (by decide),
    rfl,
    (message_or_dash (event Level.InfoLevel (str "INFO") [] []) (str "x ")).2 rfl⟩

/-- C18.  A date converter from `newLogDateConverter` has the pattern `2006-01-02`; after
`AttachOptions(opts)` the pattern is `opts[0]` when `opts` and `opts[0]` are not empty and
is unchanged otherwise; the options after the first play no part; and `Convert` hands the
pattern of the converter to `convertFormat` as the format to write. -/
theorem date_pattern_selection (env : Env) (opts : List Bytes) (opt : Bytes)
    (child next : Converter) (e : LogEvent) (buf : Bytes) :
    newLogDateConverter = Converter.date (str "2006-01-02") Converter.nil Converter.nil ∧
    (∀ first more, opts = first :: more → first ≠ [] →
      newLogDateConverter.AttachOptions opts
        = some (Converter.date first Converter.nil Converter.nil)) ∧
    (opts = [] → newLogDateConverter.AttachOptions opts = some newLogDateConverter) ∧
    (∀ more, opts = [] :: more →
      newLogDateConverter.AttachOptions opts = some newLogDateConverter) ∧
    (∀ first more, (Converter.date opt child next).AttachOptions (first :: more)
      = (Converter.date opt child next).AttachOptions [first]) ∧
    (Converter.date opt child next).Convert env (some e) buf
      = some (env.convertFormat buf e.rfc3339Nano env.TimestampFormat opt).1 := by
  refine ⟨rfl, ?_, ?_, ?_, ?_, rfl⟩
  · intro first more ho hne
    have hlen : first.length ≠ 0 := by
      intro h0
      exact hne (List.length_eq_zero.mp h0)
    subst ho
    simp [newLogDateConverter, Converter.AttachOptions, logDateConverter.AttachOptions, hlen]
  · intro ho
    subst ho
    rfl
  · intro more ho
    subst ho
    rfl
  · intro first more
    rfl

/-- Witness of C18: the options `15:04`, `x`; and an empty first option. -/
theorem date_pattern_selection_witness :
    newLogDateConverter.AttachOptions [str "15:04", str "x"]
      = some (Converter.date (str "15:04") Converter.nil Converter.nil) ∧
    newLogDateConverter.AttachOptions [] = some newLogDateConverter ∧
    newLogDateConverter.AttachOptions [[], str "15:04"] = some newLogDateConverter ∧
    newLogDateConverter.Convert ansi (some (event Level.InfoLevel (str "INFO") [] [])) (str "x ")
      = some (ansi.convertFormat (str "x ") (str "2021-03-04T05:06:07.000Z")
          ansi.TimestampFormat (str "2006-01-02")).1 :=
  ⟨(date_pattern_selection ansi [str "15:04", str "x"] [] Converter.nil Converter.nil
      (event Level.InfoLevel (str "INFO") [] []) []).2.1 (str "15:04") [str "x"] rfl
      (by decide),
    (date_pattern_selection ansi [] [] Converter.nil Converter.nil
      (event Level.InfoLevel (str "INFO") [] []) []).2.2.1 rfl,
    (date_pattern_selection ansi [[], str "15:04"] [] Converter.nil Converter.nil
      (event Level.InfoLevel (str "INFO") [] []) []).2.2.2.1 [str "15:04"] rfl,
    (date_pattern_selection ansi [] (str "2006-01-02") Converter.nil Converter.nil
      (event Level.InfoLevel (str "INFO") [] []) (str "x ")).2.2.2.2.2⟩

/-- The outer colour code of a colour converter with at least one option: the code of the
first option in `colorMap`, of white for any other name; with no option nothing is
written. -/
theorem colorConverter.outer_selects (env : Env) (first : Bytes) (more : List Bytes) :
    colorConverter.outer env (first :: more)
      = [27, 91] ++ Itoa ((colorMap env first).getD env.colorWhite) ++ [109] ∧
    colorConverter.outer env [] = [] := by
  simp [colorConverter.outer, writeColor]

/-- C19, the failing input.  A colour converter with the option `cyan` around a fields
converter, on an event with no fields: the truncation in the fields converter removes the
`m` that ends the outer colour code, so the output is `ESC [ 3 6 ESC [ 0 m` and does not
begin with the colour code `ESC [ 3 6 m`. -/
theorem colour_code_cut_by_fields :
    (Converter.color [str "cyan"] (Converter.fields Converter.nil) Converter.nil).Convert ansi
        (some (event Level.InfoLevel (str "INFO") (str "hello") [])) []
      = some [27, 91, 51, 54, 27, 91, 48, 109] ∧
    colorMap ansi (str "cyan") = some 36 ∧
    ([27, 91] ++ Itoa 36 ++ [109] : Bytes) = [27, 91, 51, 54, 109] ∧
    ¬ (([27, 91, 51, 54, 109] : Bytes) <+: [27, 91, 51, 54, 27, 91, 48, 109]) := by
  decide

/-- The loop over the entries of the caller leaves a name that is not among them as it
was, and a name that is among them, once, at the factory of the caller. -/
theorem foldl_mapSet (entries : List (Bytes × NewConverter)) :
    ∀ m : Bytes → Option NewConverter,
      (∀ k, k ∉ entries.map Prod.fst →
        entries.foldl (fun m kc => mapSet m kc.1 kc.2) m k = m k) ∧
      ((entries.map Prod.fst).Nodup → ∀ k c, (k, c) ∈ entries →
        entries.foldl (fun m kc => mapSet m kc.1 kc.2) m k = some c) := by
  induction entries with
  | nil =>
    intro m
    exact ⟨fun _ _ => rfl, fun _ k c h => by simp at h⟩
  | cons kc rest ih =>
    intro m
    obtain ⟨ih1, ih2⟩ := ih (mapSet m kc.1 kc.2)
    constructor
    · intro k hk
      simp only [List.map_cons, List.mem_cons, not_or] at hk
      rw [List.foldl_cons, ih1 k hk.2]
      simp [mapSet, hk.1]
    · intro hnd k c hmem
      simp only [List.map_cons, List.nodup_cons] at hnd
      rw [List.foldl_cons]
      rcases List.mem_cons.mp hmem with heq | hin
      · subst heq
        rw [ih1 _ hnd.1]
        simp [mapSet]
      · exact ih2 hnd.2 k c hin

/-- C20.  The registry handed to the compiler, for a map of the caller with entries
`entries` (distinct keys, visited in any order): every name of the caller maps to the
factory of the caller, also when the name is a built-in one; every other name maps to what
the map literal holds, which is the built-in factory for the six built-in names and
nothing for any other name. -/
theorem registry_precedence (entries : List (Bytes × NewConverter))
    (hkeys : (entries.map Prod.fst).Nodup) :
    (∀ k c, (k, c) ∈ entries → NewPatternEncoder.converters entries k = some c) ∧
    (∀ k, k ∉ entries.map Prod.fst →
      NewPatternEncoder.converters entries k = builtinConverters k) ∧
    (builtinConverters (str "color") = some NewConverter.newColorConverter ∧
      builtinConverters (str "level") = some NewConverter.newLevelConverter ∧
      builtinConverters (str "date") = some NewConverter.newLogDateConverter ∧
      builtinConverters (str "logger") = some NewConverter.newLoggerConverter ∧
      builtinConverters (str "message") = some NewConverter.newMessageConverter ∧
      builtinConverters (str "fields") = some NewConverter.newFieldsConverter) ∧
    (∀ k, k ∉ entries.map Prod.fst →
      k ∉ [str "color", str "level", str "date", str "logger", str "message", str "fields"] →
      NewPatternEncoder.converters entries k = none) := by
  have h := foldl_mapSet entries builtinConverters
  refine ⟨fun k c hmem => h.2 hkeys k c hmem, fun k hk => h.1 k hk,
    ⟨by decide, by decide, by decide, by decide, by decide, by decide⟩, ?_⟩
  intro k hk hnot
  have hb : NewPatternEncoder.converters entries k = builtinConverters k := h.1 k hk
  rw [hb]
  simp only [List.mem_cons, List.mem_singleton, List.not_mem_nil, or_false, not_or] at hnot
  obtain ⟨h1, h2, h3, h4, h5, h6⟩ := hnot
  simp [builtinConverters, h1, h2, h3, h4, h5, h6]

/-- Witness of C20: the caller supplies `level` and `trace`. -/
theorem registry_precedence_witness :
    ([(str "level", NewConverter.supplied 1), (str "trace", NewConverter.supplied 2)].map
      Prod.fst).Nodup ∧
    NewPatternEncoder.converters
        [(str "level", NewConverter.supplied 1), (str "trace", NewConverter.supplied 2)]
        (str "level") = some (NewConverter.supplied 1) ∧
    NewPatternEncoder.converters
        [(str "level", NewConverter.supplied 1), (str "trace", NewConverter.supplied 2)]
        (str "trace") = some (NewConverter.supplied 2) ∧
    NewPatternEncoder.converters
        [(str "level", NewConverter.supplied 1), (str "trace", NewConverter.supplied 2)]
        (str "date") = builtinConverters (str "date") ∧
    NewPatternEncoder.converters
        [(str "level", NewConverter.supplied 1), (str "trace", NewConverter.supplied 2)]
        (str "other") = none :=
  ⟨by decide,
    (registry_precedence
      [(str "level", NewConverter.supplied 1), (str "trace", NewConverter.supplied 2)]
      (by decide)).1 _ _ (by decide),
    (registry_precedence
      [(str "level", NewConverter.supplied 1), (str "trace", NewConverter.supplied 2)]
      (by decide)).1 _ _ (by decide),
    (registry_precedence
      [(str "level", NewConverter.supplied 1), (str "trace", NewConverter.supplied 2)]
      (by decide)).2.1 _ (by decide),
    (registry_precedence
      [(str "level", NewConverter.supplied 1), (str "trace", NewConverter.supplied 2)]
      (by decide)).2.2.2 _ (by decide) (by decide)⟩

/-! ## The remaining claims: C21 to C27 -/

/-- C23.  Ring relation: on a queue from `NewBlockingQueue(capacity)` with `capacity > 0`,
after every sequence of `Put`s and `Take`s that returns (those that keep `count` within
the capacity among them), `putIndex = (takeIndex + count) mod capacity`, and every slot
that is not one of the `count` slots from `takeIndex` on around the ring holds an empty
buffer. -/
theorem ring_relation (capacity : Nat) (hc : 0 < capacity) (ops : List Op)
    (q : blockingQueue) (out : List Bytes)
    (hr : (NewBlockingQueue capacity).run ops = some (q, out)) :
    q.putIndex = (q.takeIndex + q.count) % (capacity : Int) ∧
    ∀ i : Int, 0 ≤ i → i < (capacity : Int) →
      (∀ k : Int, 0 ≤ k → k < q.count → (q.takeIndex + k) % (capacity : Int) ≠ i) →
      slot q.items i = some [] := by
  obtain ⟨t, n, hring⟩ := run_ring ops _ q 0 0 out (Ring_new capacity hc) hr
  constructor
  · rw [hring.put_eq, hring.take_eq, hring.count_eq]
    push_cast
    rfl
  · intro i hi0 hilt hout
    have hi : i = ((i.toNat : Nat) : Int) := by omega
    rw [hi, slot_natCast]
    apply hring.free i.toNat (by omega)
    intro k hk heq
    apply hout (k : Int) (by omega) (by rw [hring.count_eq]; omega)
    rw [hring.take_eq, hi, ← heq]
    push_cast
    rfl

/-- Witness of C23: capacity 3, two payloads put, one taken, two more put. -/
theorem ring_relation_witness :
    0 < 3 ∧
    (NewBlockingQueue 3).run [Op.put [1], Op.put [2], Op.take, Op.put [3], Op.put [4]]
      = some ({ items := [[4], [2], [3]], count := 3, takeIndex := 1, putIndex := 1 }, [[1]]) ∧
    ((1 : Int) = ((1 : Int) + 3) % ((3 : Nat) : Int) ∧
      ∀ i : Int, 0 ≤ i → i < ((3 : Nat) : Int) →
        (∀ k : Int, 0 ≤ k → k < 3 → ((1 : Int) + k) % ((3 : Nat) : Int) ≠ i) →
        slot [[4], [2], [3]] i = some []) :=
  ⟨by decide, by decide,
    ring_relation 3 (by decide) [Op.put [1], Op.put [2], Op.take, Op.put [3], Op.put [4]]
      { items := [[4], [2], [3]], count := 3, takeIndex := 1, putIndex := 1 } [[1]]
      (by decide)⟩

/-- Writes in a row on a ring with `n ≤ 240` queued payloads and `takeIndex` 0: none
panics, the first `240 - n` payloads are queued and answered `(len, nil)`, the others are
dropped and answered `(0, nil)`. -/
theorem writeAll_ring : ∀ (ps : List Bytes) (w : asyncWriter) (n : Nat),
    Ring w.queue 256 0 n → n ≤ 240 →
    ∃ w', w.writeAll ps = some (w',
        (ps.take (240 - n)).map (fun p => ((p.length : Int), none)) ++
          (ps.drop (240 - n)).map (fun _ => ((0 : Int), none))) ∧
      Ring w'.queue 256 0 (min (n + ps.length) 240) ∧
      w'.queue.pending = w.queue.pending ++ ps.take (240 - n) := by
  intro ps
  induction ps with
  | nil =>
    intro w n h hn
    refine ⟨w, by simp [asyncWriter.writeAll], ?_, by simp⟩
    have e : min (n + ([] : List Bytes).length) 240 = n := by simp; omega
    rw [e]
    exact h
  | cons p ps ih =>
    intro w n h hn
    by_cases hfull : n = 240
    · subst hfull
      have hdrop : w.Write p = some ((0, none), w) := by
        unfold asyncWriter.Write
        have hcap : w.queue.RemainCapacity ≤ 16 := by
          unfold blockingQueue.RemainCapacity
          rw [h.count_eq, h.len]
          omega
        rw [if_pos hcap]
      obtain ⟨w', hw, hring, hpend⟩ := ih w 240 h (by omega)
      refine ⟨w', ?_, ?_, ?_⟩
      · simp only [asyncWriter.writeAll, hdrop, hw]
        simp
      · have e : min (240 + (p :: ps).length) 240 = min (240 + ps.length) 240 := by
          simp
        rw [e]
        exact hring
      · rw [hpend]
        simp
    · have hlt : n < 240 := by omega
      obtain ⟨buf, hbuf, hput, hring1⟩ := Ring_put h p
      have hb : buf = [] := by
        have := Ring_put_free h (by omega : n < 256)
        rw [hbuf] at this
        exact Option.some.inj this
      subst hb
      simp only [List.nil_append] at hput hring1
      have hacc : w.Write p = some (((p.length : Int), none),
          { w with queue := { items := w.queue.items.set ((0 + n) % 256) p,
                              count := (n : Int) + 1, takeIndex := ((0 : Nat) : Int),
                              putIndex := (((0 + (n + 1)) % 256 : Nat) : Int) } }) := by
        unfold asyncWriter.Write
        have hcap : ¬ w.queue.RemainCapacity ≤ 16 := by
          unfold blockingQueue.RemainCapacity
          rw [h.count_eq, h.len]
          omega
        rw [if_neg hcap, hput]
      obtain ⟨w', hw, hring, hpend⟩ :=
        ih { w with queue := { items := w.queue.items.set ((0 + n) % 256) p,
                               count := (n : Int) + 1, takeIndex := ((0 : Nat) : Int),
                               putIndex := (((0 + (n + 1)) % 256 : Nat) : Int) } }
          (n + 1) hring1 (by omega)
      have e1 : 240 - n = (240 - (n + 1)) + 1 := by omega
      refine ⟨w', ?_, ?_, ?_⟩
      · simp only [asyncWriter.writeAll, hacc, hw]
        rw [e1]
        simp
      · have e : min (n + (p :: ps).length) 240 = min (n + 1 + ps.length) 240 := by
          simp only [List.length_cons]
          congr 1
          omega
        rw [e]
        exact hring
      · rw [hpend, pending_put h hring1 (by omega) p rfl, e1]
        simp

/-- C24.  Guard band: in every state that an interleaving of `Start`, `Write` and worker
steps reaches from `NewAsyncWriter`, the queue has 256 slots and `count ≤ 240`, and
`count < 240` whenever a producer is about to call `Put`, so `Put` is never called on a
full queue; and with no `Take` in between, of any payloads written in a row exactly the
first 240 are queued, in order, and answered `(len(p), nil)`, and every later one is
dropped and answered `(0, nil)`. -/
theorem guard_band (ref : Writer) (events : List Event) (ps : List Bytes) :
    (∃ s, (System.init ref).run events = some s ∧
      s.w.queue.items.length = 256 ∧
      s.w.queue.count ≤ 240 ∧
      (s.producer.isSome = true → s.w.queue.count < 240)) ∧
    (∃ w, (NewAsyncWriter ref).writeAll ps = some (w,
        (ps.take 240).map (fun p => ((p.length : Int), none)) ++
          (ps.drop 240).map (fun _ => ((0 : Int), none))) ∧
      w.queue.pending = ps.take 240 ∧
      w.queue.count = ((min ps.length 240 : Nat) : Int)) := by
  constructor
  · obtain ⟨s, t, n, hr, hinv⟩ := System.run_inv events _ 0 0 (System.Inv_init ref)
    refine ⟨s, hr, hinv.ring.len, ?_, ?_⟩
    · rw [hinv.ring.count_eq]
      have := hinv.bound
      omega
    · intro hp
      rw [hinv.ring.count_eq]
      have := hinv.room hp
      omega
  · obtain ⟨w, hw, hring, hpend⟩ :=
      writeAll_ring ps (NewAsyncWriter ref) 0 (Ring_new 256 (by decide)) (by omega)
    refine ⟨w, hw, ?_, ?_⟩
    · rw [hpend]
      simp [NewAsyncWriter, pending_new]
    · rw [hring.count_eq, Nat.zero_add]

set_option maxRecDepth 100000 in
/-- Witness of C24: a producer that has passed the test finds fewer than 240 payloads
queued; and of 243 payloads written in a row the last three are dropped. -/
theorem guard_band_witness :
    (∃ s, (System.init sink).run [Event.enter [1], Event.put, Event.enter [2]] = some s ∧
      s.producer.isSome = true ∧ s.w.queue.count < 240) ∧
    ((NewAsyncWriter sink).writeAll (List.replicate 243 [7])).map
        (fun r => (r.1.queue.count, r.2.drop 238))
      = some (240, [(1, none), (1, none), (0, none), (0, none), (0, none)]) := by
  constructor
  · obtain ⟨⟨s, hr, _, _, himp⟩, _⟩ :=
      guard_band sink [Event.enter [1], Event.put, Event.enter [2]] []
    have hfacts : ((System.init sink).run [Event.enter [1], Event.put, Event.enter [2]]).map
        (fun s => s.producer.isSome) = some true := by
      decide
    rw [hr] at hfacts
    simp only [Option.map_some', Option.some.injEq] at hfacts
    exact ⟨s, hr, hfacts, himp hfacts⟩
  · decide

/-- The result of the older fields converter for a list of fields written after `buf`. -/
theorem api.foldl_fields (fields : List (Bytes × Bytes)) :
    ∀ buf : Bytes,
      fields.foldl (fun buf kv => buf ++ (kv.1 ++ str "=" ++ kv.2 ++ str " ")) buf
        = buf ++ (fields.map fun kv => kv.1 ++ str "=" ++ kv.2 ++ str " ").flatten := by
  induction fields with
  | nil => intro buf; simp
  | cons kv rest ih =>
    intro buf
    rw [List.foldl_cons, ih]
    simp [List.append_assoc]

/-- The older fields converter, for every event with at least one field: the result ends
in a space. -/
theorem api.fields_end_in_space (e : api.logEvent) (h : e.fields ≠ []) :
    (api.fieldsConverter.Convert (some e)).getLast? = some 32 := by
  unfold api.fieldsConverter.Convert
  simp only
  rw [api.foldl_fields, List.nil_append]
  obtain ⟨front, kv, hsplit⟩ : ∃ front kv, e.fields = front ++ [kv] :=
    ⟨e.fields.dropLast, e.fields.getLast h, (List.dropLast_append_getLast h).symm⟩
  rw [hsplit]
  have hsp : str " " = [32] := by decide
  simp [hsp, ← List.append_assoc]

/-- C22, the failing input.  The fields converter of `slago-api` on the fields `a=1`,
`b=2` returns `a=1 b=2 ` with the space after the last field: the result ends in a
space. -/
theorem api.fields_trailing_space :
    api.fieldsConverter.Convert
        (some ⟨Level.InfoLevel, 0, str "hello", [(str "a", str "1"), (str "b", str "2")]⟩)
      = str "a=1 b=2 " ∧
    (api.fieldsConverter.Convert
        (some ⟨Level.InfoLevel, 0, str "hello", [(str "a", str "1"), (str "b", str "2")]⟩)).getLast?
      = some 32 ∧
    str "a=1 b=2 " ≠ str "a=1 b=2" := by
  decide

/-- C27, the failing input.  `SetLevel(slago.TraceLevel)` sets the zerolog global level to
`zerolog.NoLevel`, the entry of the table, and not to `zerolog.TraceLevel`, the value the
local variable `zeroLevel` holds; for the other six named levels the two agree. -/
theorem SetLevel_trace_sets_NoLevel :
    zeroLogger.SetLevel Level.TraceLevel = zerolog.Level.NoLevel ∧
    zeroLogger.SetLevel.zeroLevel Level.TraceLevel = zerolog.Level.TraceLevel ∧
    zeroLogger.SetLevel Level.TraceLevel ≠ zerolog.Level.TraceLevel ∧
    (∀ lvl ∈ [Level.DebugLevel, Level.InfoLevel, Level.WarnLevel, Level.ErrorLevel,
        Level.FatalLevel, Level.PanicLevel],
      zeroLogger.SetLevel lvl = zeroLogger.SetLevel.zeroLevel lvl) := by
  decide

/-- `bytes.LastIndex` returns the index of the last `/`. -/
theorem lastIndexSlash_eq (name : Bytes) (k : Nat) (hk : name[k]? = some 47)
    (hlast : ∀ j, k < j → name[j]? ≠ some 47) : lastIndexSlash name = (k : Int) := by
  have hklt : k < name.length := by
    rcases Nat.lt_or_ge k name.length with h | h
    · exact h
    · rw [List.getElem?_eq_none h] at hk
      cases hk
  have hfind : name.reverse.findIdx? (fun b => b == 47) = some (name.length - 1 - k) := by
    rw [List.findIdx?_eq_some_iff_getElem]
    refine ⟨by simp; omega, ?_, ?_⟩
    · rw [List.getElem_reverse]
      have e : name.length - 1 - (name.length - 1 - k) = k := by omega
      have hget : name[k] = 47 := by
        rw [List.getElem?_eq_getElem hklt] at hk
        exact Option.some.inj hk
      simp [e, hget]
    · intro j hj
      rw [List.getElem_reverse]
      have hjlt : name.length - 1 - j < name.length := by omega
      have hne := hlast (name.length - 1 - j) (by omega)
      rw [List.getElem?_eq_getElem hjlt] at hne
      intro hp
      apply hne
      simpa using hp
  unfold lastIndexSlash List.indexOf?
  rw [hfind]
  simp only
  omega

/-- With no `/` at an index greater than 0, `bytes.LastIndex` returns 0 or `-1`. -/
theorem lastIndexSlash_le_zero (name : Bytes) (h : ∀ i, 0 < i → name[i]? ≠ some 47) :
    lastIndexSlash name ≤ 0 := by
  unfold lastIndexSlash List.indexOf?
  cases hf : name.reverse.findIdx? (fun b => b == 47) with
  | none => simp
  | some j =>
    simp only
    rw [List.findIdx?_eq_some_iff_getElem] at hf
    obtain ⟨hj, hp, _⟩ := hf
    rw [List.getElem_reverse] at hp
    have hj' : j < name.length := by simpa using hj
    by_cases h0 : 0 < name.length - 1 - j
    · have hlt : name.length - 1 - j < name.length := by omega
      have hget : name[name.length - 1 - j]? = some 47 := by
        rw [List.getElem?_eq_getElem hlt]
        simpa using hp
      exact absurd hget (h (name.length - 1 - j) h0)
    · omega

/-- C26.  The abbreviation is the identity when it does not apply: when `opt ≤ 0`, when
`len(name) ≤ opt`, and when `name` has no `/` at an index greater than 0.  The option of a
converter from `newLoggerConverter` is `-1`, and `AttachOptions` keeps it when there is no
option or when the first option is not an integer. -/
theorem abbreviator_identity (opt : Int) (name : Bytes) :
    (opt ≤ 0 → loggerConverter.abbreviator opt name = name) ∧
    ((name.length : Int) ≤ opt → loggerConverter.abbreviator opt name = name) ∧
    ((∀ i, 0 < i → name[i]? ≠ some 47) → loggerConverter.abbreviator opt name = name) ∧
    newLoggerConverter = Converter.logger (-1) Converter.nil ∧
    newLoggerConverter.AttachOptions [] = some newLoggerConverter ∧
    (∀ first more, Atoi first = none →
      newLoggerConverter.AttachOptions (first :: more) = some newLoggerConverter) ∧
    loggerConverter.abbreviator (-1) name = name := by
  refine ⟨?_, ?_, ?_, rfl, rfl, ?_, ?_⟩
  · intro h
    simp [loggerConverter.abbreviator, h]
  · intro h
    simp [loggerConverter.abbreviator, h]
  · intro h
    unfold loggerConverter.abbreviator
    split
    · rfl
    · rw [if_pos (lastIndexSlash_le_zero name h)]
  · intro first more hA
    simp [newLoggerConverter, Converter.AttachOptions, loggerConverter.AttachOptions, hA]
  · simp [loggerConverter.abbreviator]

/-- Witness of C26: the option 0, a short name, a name without `/`, and the option `abc`,
which is not an integer. -/
theorem abbreviator_identity_witness :
    loggerConverter.abbreviator 0 (str "github.com/coolerfall/slago")
      = str "github.com/coolerfall/slago" ∧
    loggerConverter.abbreviator 30 (str "github.com/coolerfall/slago")
      = str "github.com/coolerfall/slago" ∧
    loggerConverter.abbreviator 3 (str "slago.core") = str "slago.core" ∧
    Atoi (str "abc") = none ∧
    newLoggerConverter.AttachOptions [str "abc"] = some newLoggerConverter :=
  ⟨(abbreviator_identity 0 (str "github.com/coolerfall/slago")).1 (by decide),
    (abbreviator_identity 30 (str "github.com/coolerfall/slago")).2.1 (by decide),
    (abbreviator_identity 3 (str "slago.core")).2.2.1 (by
      intro i hi
      have hlen : (str "slago.core").length = 10 := by decide
      rcases Nat.lt_or_ge i 10 with h | h
      · interval_cases i <;> decide
      · rw [List.getElem?_eq_none (by rw [hlen]; exact h)]
        exact fun h => by cases h),
    by decide,
    (abbreviator_identity 3 (str "slago.core")).2.2.2.2.2.1 (str "abc") [] (by decide)⟩

/-- The test of the loop for a separator is `isSeparator`. -/
theorem isSeparator_iff (b : UInt8) : isSeparator b = true ↔ (b = 47 ∨ b = 46) := by
  simp [isSeparator]

/-- From a position at or before the last `/`, which is not the last byte, the loop of
`abbreviator` returns bytes followed by the name from that `/` on. -/
theorem abbreviatorLoop_ends (opt L K : Int) : ∀ (rest : Bytes) (i d : Nat) (abbr : Bytes)
    (got : Bool), L = (i : Int) + (rest.length : Int) → K = (i : Int) + (d : Int) →
    d + 1 < rest.length → rest[d]? = some 47 →
    ∃ pre, abbreviatorLoop opt L K i rest abbr got = pre ++ rest.drop d := by
  intro rest
  induction rest with
  | nil =>
    intro i d abbr got _ _ hd _
    simp at hd
  | cons tmp rest ih =>
    intro i d abbr got hL hK hd hget
    simp only [List.length_cons] at hL hd
    have hcont : (i : Int) < L - 1 := by
      push_cast at hL
      omega
    unfold abbreviatorLoop
    rw [if_neg (by omega : ¬ ¬ ((i : Int) < L - 1))]
    cases d with
    | zero =>
      have htmp : tmp = 47 := by simpa using hget
      have hidx : (i : Int) = K := by simp [hK]
      rw [if_pos (Or.inl htmp), if_pos (Or.inl hidx)]
      exact ⟨abbr, rfl⟩
    | succ d =>
      have hget' : rest[d]? = some 47 := by simpa using hget
      have hL' : L = ((i + 1 : Nat) : Int) + (rest.length : Int) := by
        push_cast at hL ⊢
        omega
      have hK' : K = ((i + 1 : Nat) : Int) + (d : Int) := by
        push_cast at hK ⊢
        omega
      have hd' : d + 1 < rest.length := by omega
      have hdrop : (tmp :: rest).drop (d + 1) = rest.drop d := rfl
      rw [hdrop]
      split
      · split
        · refine ⟨abbr ++ tmp :: rest.take d, ?_⟩
          rw [List.append_assoc, List.cons_append, List.take_append_drop]
        · exact ih (i + 1) d _ _ hL' hK' hd' hget'
      · split
        · exact ih (i + 1) d _ _ hL' hK' hd' hget'
        · exact ih (i + 1) d _ _ hL' hK' hd' hget'

/-- When no early stop applies before the last `/`, the loop of `abbreviator` returns what
it has, then the bytes up to that `/` with every segment reduced to its first byte, then
the name from that `/` on. -/
theorem abbreviatorLoop_reduces (opt L K : Int) : ∀ (rest : Bytes) (i d : Nat) (abbr : Bytes)
    (got : Bool), L = (i : Int) + (rest.length : Int) → K = (i : Int) + (d : Int) →
    d + 1 < rest.length → rest[d]? = some 47 →
    (∀ m, m < d → isSeparator (rest.getD m 0) = true →
      opt < (abbr.length : Int) + ((reduceSegmentsFrom (!got) (rest.take m)).length : Int)
        + L - ((i : Int) + (m : Int)) + 1) →
    abbreviatorLoop opt L K i rest abbr got
      = abbr ++ reduceSegmentsFrom (!got) (rest.take d) ++ rest.drop d := by
  intro rest
  induction rest with
  | nil =>
    intro i d abbr got _ _ hd _ _
    simp at hd
  | cons tmp rest ih =>
    intro i d abbr got hL hK hd hget hstop
    simp only [List.length_cons] at hL hd
    have hcont : (i : Int) < L - 1 := by
      push_cast at hL
      omega
    unfold abbreviatorLoop
    rw [if_neg (by omega : ¬ ¬ ((i : Int) < L - 1))]
    cases d with
    | zero =>
      have htmp : tmp = 47 := by simpa using hget
      have hidx : (i : Int) = K := by simp [hK]
      rw [if_pos (Or.inl htmp), if_pos (Or.inl hidx)]
      simp [reduceSegmentsFrom]
    | succ d =>
      have hget' : rest[d]? = some 47 := by simpa using hget
      have hL' : L = ((i + 1 : Nat) : Int) + (rest.length : Int) := by
        push_cast at hL ⊢
        omega
      have hK' : K = ((i + 1 : Nat) : Int) + (d : Int) := by
        push_cast at hK ⊢
        omega
      have hd' : d + 1 < rest.length := by omega
      have hne : ¬ ((i : Int) = K) := by omega
      by_cases hsep : tmp = 47 ∨ tmp = 46
      · have hs : isSeparator tmp = true := (isSeparator_iff tmp).mpr hsep
        have h0 := hstop 0 (by omega) (by simpa using hs)
        simp only [List.take_zero, reduceSegmentsFrom, List.length_nil] at h0
        have hnostop : ¬ ((i : Int) = K ∨ (abbr.length : Int) + L - (i : Int) + 1 ≤ opt) := by
          push_cast at h0
          omega
        rw [if_pos hsep, if_neg hnostop]
        rw [ih (i + 1) d (abbr ++ [tmp]) false hL' hK' hd' hget' ?_]
        · simp [reduceSegmentsFrom, hs]
        · intro m hm hsm
          have h1 := hstop (m + 1) (by omega) (by simpa using hsm)
          simp only [List.take_succ_cons, reduceSegmentsFrom, hs, if_true,
            List.length_cons] at h1
          simp only [List.length_append, List.length_singleton, Bool.not_false]
          push_cast at h1 ⊢
          omega
      · have hs : isSeparator tmp = false := by
          cases hb : isSeparator tmp with
          | false => rfl
          | true => exact absurd ((isSeparator_iff tmp).mp hb) hsep
        rw [if_neg hsep]
        cases got with
        | true =>
          rw [if_pos rfl]
          rw [ih (i + 1) d abbr true hL' hK' hd' hget' ?_]
          · simp [reduceSegmentsFrom, hs]
          · intro m hm hsm
            have h1 := hstop (m + 1) (by omega) (by simpa using hsm)
            simp only [List.take_succ_cons, reduceSegmentsFrom, hs, Bool.not_true,
              Bool.false_eq_true, if_false] at h1
            simp only [Bool.not_true]
            push_cast at h1 ⊢
            omega
        | false =>
          rw [if_neg (by simp)]
          rw [ih (i + 1) d (abbr ++ [tmp]) true hL' hK' hd' hget' ?_]
          · simp [reduceSegmentsFrom, hs]
          · intro m hm hsm
            have h1 := hstop (m + 1) (by omega) (by simpa using hsm)
            simp only [List.take_succ_cons, reduceSegmentsFrom, hs, Bool.not_false,
              Bool.false_eq_true, if_false, if_true, List.length_cons] at h1
            simp only [List.length_append, List.length_singleton, Bool.not_true]
            push_cast at h1 ⊢
            omega

/-- C25.  For an option `opt > 0` and a name longer than `opt` whose last `/` is at an
index `k` with `0 < k < len(name) - 1`, the abbreviation ends with `name[k:]`; and when no
early stop applies (at no separator before `k` does what is written so far, the rest of
the name and 1 fit in `opt`), it is `name[:k]` with every segment reduced to its first
byte and the separators kept, followed by `name[k:]`. -/
theorem abbreviator_keeps_last_segment (opt : Int) (name : Bytes) (k : Nat)
    (hopt : 0 < opt) (hlen : opt < (name.length : Int))
    (hk : name[k]? = some 47) (hlast : ∀ j, k < j → name[j]? ≠ some 47)
    (hk0 : 0 < k) (hk1 : k + 1 < name.length) :
    (∃ pre, loggerConverter.abbreviator opt name = pre ++ name.drop k) ∧
    ((∀ m, m < k → isSeparator (name.getD m 0) = true →
        opt < ((reduceSegments (name.take m)).length : Int) + (name.length : Int)
          - (m : Int) + 1) →
      loggerConverter.abbreviator opt name = reduceSegments (name.take k) ++ name.drop k) := by
  have hidx : lastIndexSlash name = (k : Int) := lastIndexSlash_eq name k hk hlast
  have hab : loggerConverter.abbreviator opt name
      = abbreviatorLoop opt (name.length : Int) (k : Int) 0 name [] false := by
    unfold loggerConverter.abbreviator
    rw [if_neg (by omega), hidx, if_neg (by omega)]
  constructor
  · rw [hab]
    exact abbreviatorLoop_ends opt _ _ name 0 k [] false (by simp) (by simp) hk1 hk
  · intro hstop
    rw [hab, abbreviatorLoop_reduces opt _ _ name 0 k [] false (by simp) (by simp) hk1 hk ?_]
    · simp [reduceSegments]
    · intro m hm hs
      have := hstop m hm hs
      simp only [reduceSegments] at this
      simp only [List.length_nil, Bool.not_false]
      push_cast
      omega

/-- The name `github.com/coolerfall/slago` has no `/` after the index 21. -/
theorem slago_name_last_slash :
    ∀ j, 21 < j → (str "github.com/coolerfall/slago")[j]? ≠ some 47 := by
  intro j hj
  have hlen : (str "github.com/coolerfall/slago").length = 27 := by decide
  rcases Nat.lt_or_ge j 27 with h | h
  · interval_cases j <;> decide
  · rw [List.getElem?_eq_none (by rw [hlen]; exact h)]
    exact fun h => by cases h

/-- Witness of C25: `github.com/coolerfall/slago` with the option 10 gives `g.c/c/slago`. -/
theorem abbreviator_keeps_last_segment_witness :
    (0 : Int) < 10 ∧ (10 : Int) < ((str "github.com/coolerfall/slago").length : Int) ∧
    (str "github.com/coolerfall/slago")[21]? = some 47 ∧
    0 < 21 ∧ 21 + 1 < (str "github.com/coolerfall/slago").length ∧
    (∀ m, m < 21 → isSeparator ((str "github.com/coolerfall/slago").getD m 0) = true →
        (10 : Int) < ((reduceSegments ((str "github.com/coolerfall/slago").take m)).length : Int)
          + ((str "github.com/coolerfall/slago").length : Int) - (m : Int) + 1) ∧
    loggerConverter.abbreviator 10 (str "github.com/coolerfall/slago") = str "g.c/c/slago" ∧
    (∃ pre, loggerConverter.abbreviator 10 (str "github.com/coolerfall/slago")
      = pre ++ (str "github.com/coolerfall/slago").drop 21) ∧
    loggerConverter.abbreviator 10 (str "github.com/coolerfall/slago")
      = reduceSegments ((str "github.com/coolerfall/slago").take 21)
        ++ (str "github.com/coolerfall/slago").drop 21 ∧
    reduceSegments ((str "github.com/coolerfall/slago").take 21) = str "g.c/c" ∧
    (str "github.com/coolerfall/slago").drop 21 = str "/slago" :=
  ⟨by decide, by decide, by decide, by decide, by decide, by decide, by decide,
    (abbreviator_keeps_last_segment 10 (str "github.com/coolerfall/slago") 21 (by decide)
      (by decide) (by decide) slago_name_last_slash (by decide) (by decide)).1,
    (abbreviator_keeps_last_segment 10 (str "github.com/coolerfall/slago") 21 (by decide)
      (by decide) (by decide) slago_name_last_slash (by decide) (by decide)).2 (by decide),
    by decide, by decide⟩

/-- A run of two sequences of steps one after the other. -/
theorem System.run_events_append (a b : List Event) : ∀ s : System,
    s.run (a ++ b) = match s.run a with
      | none => none
      | some s1 => s1.run b := by
  induction a with
  | nil => intro s; rfl
  | cons e a ih =>
    intro s
    rw [List.cons_append]
    simp only [System.run]
    cases s.step e with
    | none => rfl
    | some s1 => exact ih s1

/-- `Start` on a started writer, and on a writer that is not started. -/
theorem asyncWriter.Start_cases (w : asyncWriter) :
    (w.isStarted = true → w.Start = (w, 0)) ∧
    (¬ w.isStarted = true → w.Start = ({ w with isStarted := true }, 1)) := by
  constructor
  · intro h
    simp [asyncWriter.Start, h]
  · intro h
    simp [asyncWriter.Start, h]

/-- Every step keeps the count of launched workers in agreement with `isStarted`. -/
theorem System.step_launchedOnce {s s1 : System} (e : Event) (h : s.launchedOnce)
    (hs : s.step e = some s1) : s1.launchedOnce := by
  unfold System.launchedOnce at h ⊢
  cases e with
  | start =>
    simp only [System.step, Option.some.injEq] at hs
    subst hs
    by_cases hw : s.w.isStarted = true
    · rw [if_pos hw] at h
      simp only [(asyncWriter.Start_cases s.w).1 hw, if_pos hw]
      omega
    · rw [if_neg hw] at h
      simp only [(asyncWriter.Start_cases s.w).2 hw]
      rw [if_pos trivial]
      omega
  | enter p =>
    simp only [System.step] at hs
    split at hs
    · cases hs; exact h
    · split at hs
      · cases hs; exact h
      · cases hs; exact h
  | put =>
    simp only [System.step] at hs
    split at hs
    · cases hs; exact h
    · split at hs
      · cases hs
      · cases hs; exact h
  | take =>
    simp only [System.step] at hs
    split at hs
    · cases hs; exact h
    · split at hs
      · cases hs; exact h
      · cases hs
      · cases hs; exact h
  | forward =>
    simp only [System.step] at hs
    split at hs
    · cases hs; exact h
    · cases hs; exact h

/-- Every interleaving keeps the count of launched workers in agreement with
`isStarted`. -/
theorem System.run_launchedOnce : ∀ (events : List Event) (s s1 : System),
    s.launchedOnce → s.run events = some s1 → s1.launchedOnce := by
  intro events
  induction events with
  | nil =>
    intro s s1 h hr
    cases hr
    exact h
  | cons e events ih =>
    intro s s1 h hr
    simp only [System.run] at hr
    cases hs : s.step e with
    | none => simp [hs] at hr
    | some s2 =>
      rw [hs] at hr
      exact ih s2 s1 (System.step_launchedOnce e h hs) hr

/-- What a call of `Start` leaves as it was, and that a worker runs after it. -/
theorem System.frame_start {s s1 : System} (h : s.launchedOnce)
    (hs : s.step Event.start = some s1) :
    s1.producer = s.producer ∧ s1.worker = s.worker ∧ s1.enqueued = s.enqueued ∧
      s1.launched ≠ 0 := by
  unfold System.launchedOnce at h
  simp only [System.step, Option.some.injEq] at hs
  subst hs
  refine ⟨rfl, rfl, rfl, ?_⟩
  by_cases hw : s.w.isStarted = true
  · rw [if_pos hw] at h
    simp only [(asyncWriter.Start_cases s.w).1 hw]
    omega
  · simp only [(asyncWriter.Start_cases s.w).2 hw]
    omega

/-- The step `put` ends the `Write` in progress: its payload is handed to `Put`. -/
theorem System.frame_put {s s1 : System} (hs : s.step Event.put = some s1) :
    s1.producer = none ∧ s1.worker = s.worker ∧
      s1.enqueued = s.enqueued ++ s.producer.toList ∧ s1.launched = s.launched := by
  simp only [System.step] at hs
  cases hp : s.producer with
  | none =>
    simp only [hp] at hs
    cases hs
    simp [hp]
  | some p =>
    simp only [hp] at hs
    cases hq : s.w.queue.Put p with
    | none => simp [hq] at hs
    | some q =>
      simp only [hq, Option.some.injEq] at hs
      subst hs
      simp

/-- The step `forward` empties the hands of the worker. -/
theorem System.frame_forward {s s1 : System} (hs : s.step Event.forward = some s1) :
    s1.worker = none ∧ s1.producer = s.producer ∧ s1.enqueued = s.enqueued ∧
      s1.launched = s.launched := by
  simp only [System.step] at hs
  cases hw : s.worker with
  | none =>
    simp only [hw] at hs
    cases hs
    simp [hw]
  | some p =>
    simp only [hw, Option.some.injEq] at hs
    subst hs
    simp

/-- The first three steps of the draining bring a system to rest in front of a running
worker, with the payload of the `Write` in progress handed to `Put`. -/
theorem System.drain_start {s : System} {ref : Writer} {t n : Nat} (h : s.Inv ref t n)
    (hl : s.launchedOnce) :
    ∃ s3 t3 n3, s.run [Event.start, Event.put, Event.forward] = some s3 ∧
      s3.Quiet ref t3 n3 ∧ s3.enqueued = s.enqueued ++ s.producer.toList := by
  obtain ⟨s1, t1, n1, hs1, h1⟩ := System.step_inv h Event.start
  obtain ⟨s2, t2, n2, hs2, h2⟩ := System.step_inv h1 Event.put
  obtain ⟨s3, t3, n3, hs3, h3⟩ := System.step_inv h2 Event.forward
  obtain ⟨a1, a2, a3, a4⟩ := System.frame_start hl hs1
  obtain ⟨b1, b2, b3, b4⟩ := System.frame_put hs2
  obtain ⟨c1, c2, c3, c4⟩ := System.frame_forward hs3
  refine ⟨s3, t3, n3, by simp only [System.run, hs1, hs2, hs3], ⟨h3, ?_, c1, ?_⟩, ?_⟩
  · rw [c2, b1]
  · rw [c4, b4]
    exact a4
  · rw [c3, b3, a3, a1]

/-- One iteration of the worker on a system at rest: it takes the oldest payload, when
there is one, and hands it on; the system is at rest again with one payload less. -/
theorem System.Quiet_iterate {s : System} {ref : Writer} {t n : Nat}
    (h : s.Quiet ref t n) :
    ∃ s2 t2, s.run [Event.take, Event.forward] = some s2 ∧ s2.Quiet ref t2 (n - 1) ∧
      s2.enqueued = s.enqueued := by
  have hgate : ¬ (s.launched = 0 ∨ s.worker.isSome = true) := by
    simp [h.launched, h.worker]
  cases n with
  | zero =>
    have h0 : s.w.queue.count = 0 := by rw [h.inv.ring.count_eq]; rfl
    refine ⟨s, t, ?_, h, rfl⟩
    simp [System.run, System.step, hgate, blockingQueue.Take, h0, h.worker]
  | succ n =>
    obtain ⟨data, hdata, htake, hring⟩ := Ring_take h.inv.ring
    have hq : (({ s with
          w := { s.w with queue :=
            { items := s.w.queue.items.set t [], count := (n : Int),
              takeIndex := (((t + 1) % 256 : Nat) : Int), putIndex := s.w.queue.putIndex } },
          worker := none,
          effects := s.effects ++ asyncWriter.deliver s.w.ref data } : System).Quiet ref
        ((t + 1) % 256) n) := by
      refine ⟨⟨hring, ?_, ?_, h.inv.ref_eq, ?_⟩, h.producer, rfl, h.launched⟩
      · have := h.inv.bound
        omega
      · intro hp
        simp [h.producer] at hp
      · intro hF hE
        have ho := h.inv.order hF hE
        rw [h.worker, pending_take h.inv.ring hring (by have := h.inv.bound; omega) data
          hdata rfl] at ho
        simp only
        rw [← ho, forwarded_append, h.inv.ref_eq, forwarded_deliver ref hF hE]
        simp
    refine ⟨_, (t + 1) % 256, ?_, hq, rfl⟩
    simp only [System.run, System.step, if_neg hgate, htake]

/-- As many iterations of the worker as there are queued payloads, or more, empty the
queue. -/
theorem System.Quiet_iterations {ref : Writer} : ∀ (m : Nat) (s : System) (t n : Nat),
    s.Quiet ref t n → n ≤ m →
    ∃ s' t', s.run (List.replicate m [Event.take, Event.forward]).flatten = some s' ∧
      s'.Quiet ref t' 0 ∧ s'.enqueued = s.enqueued := by
  intro m
  induction m with
  | zero =>
    intro s t n h hn
    have h0 : n = 0 := by omega
    subst h0
    exact ⟨s, t, rfl, h, rfl⟩
  | succ m ih =>
    intro s t n h hn
    obtain ⟨s2, t2, hr2, h2, he2⟩ := System.Quiet_iterate h
    obtain ⟨s', t', hr', h', he'⟩ := ih s2 t2 (n - 1) h2 (by omega)
    refine ⟨s', t', ?_, h', by rw [he', he2]⟩
    rw [List.replicate_succ, List.flatten_cons, System.run_events_append, hr2]
    exact hr'

/-- A step keeps the ledger of the queue, whatever the downstream writer: the payloads
returned by `Take` so far, then the queued ones, are the payloads handed to `Put`. -/
theorem System.step_ledger {s s' : System} {ref : Writer} {t n : Nat} (h : s.Inv ref t n)
    (e : Event) (hs : s.step e = some s') (T : List Bytes)
    (hT : T ++ s.w.queue.pending = s.enqueued) :
    (T ++ s.taken e) ++ s'.w.queue.pending = s'.enqueued := by
  cases e with
  | start =>
    simp only [System.step, Option.some.injEq] at hs
    subst hs
    have hw : s.w.Start.1.queue = s.w.queue := by
      unfold asyncWriter.Start
      split <;> rfl
    simp only [System.taken, List.append_nil, hw]
    exact hT
  | enter p =>
    simp only [System.step] at hs
    cases hp : s.producer with
    | some p0 =>
      simp only [hp, Option.some.injEq] at hs
      subst hs
      simpa [System.taken] using hT
    | none =>
      simp only [hp] at hs
      split at hs
      · simp only [Option.some.injEq] at hs
        subst hs
        simpa [System.taken] using hT
      · simp only [Option.some.injEq] at hs
        subst hs
        simpa [System.taken] using hT
  | put =>
    simp only [System.step] at hs
    cases hp : s.producer with
    | none =>
      simp only [hp, Option.some.injEq] at hs
      subst hs
      simpa [System.taken] using hT
    | some p =>
      have hn : n < 240 := h.room (by rw [hp]; rfl)
      obtain ⟨buf, hbuf, hput, hring⟩ := Ring_put h.ring p
      have hb : buf = [] := by
        have := Ring_put_free h.ring (by omega : n < 256)
        rw [hbuf] at this
        exact Option.some.inj this
      subst hb
      simp only [List.nil_append] at hput hring
      simp only [hp, hput, Option.some.injEq] at hs
      subst hs
      simp only [System.taken, List.append_nil]
      rw [pending_put h.ring hring (by omega) p rfl, ← hT]
      simp
  | take =>
    simp only [System.step] at hs
    by_cases hg : s.launched = 0 ∨ s.worker.isSome = true
    · rw [if_pos hg, Option.some.injEq] at hs
      subst hs
      simpa [System.taken, hg] using hT
    · rw [if_neg hg] at hs
      cases n with
      | zero =>
        have h0 : s.w.queue.count = 0 := by rw [h.ring.count_eq]; rfl
        have ht : s.w.queue.Take = TakeResult.blocked := by
          simp [blockingQueue.Take, h0]
        simp only [ht, Option.some.injEq] at hs
        subst hs
        simpa [System.taken, hg, ht] using hT
      | succ n =>
        obtain ⟨data, hdata, htake, hring⟩ := Ring_take h.ring
        simp only [htake, Option.some.injEq] at hs
        subst hs
        simp only [System.taken, if_neg hg, htake]
        rw [← hT, pending_take h.ring hring (by have := h.bound; omega) data hdata rfl]
        simp
  | forward =>
    simp only [System.step] at hs
    cases hw : s.worker with
    | none =>
      simp only [hw, Option.some.injEq] at hs
      subst hs
      simpa [System.taken] using hT
    | some p =>
      simp only [hw, Option.some.injEq] at hs
      subst hs
      simpa [System.taken] using hT

/-- Every interleaving returns, keeps the invariant and keeps the ledger of the queue. -/
theorem System.run_ledger {ref : Writer} :
    ∀ (events : List Event) (s : System) (t n : Nat) (T : List Bytes), s.Inv ref t n →
    T ++ s.w.queue.pending = s.enqueued →
    ∃ s' t' n', s.run events = some s' ∧ s'.Inv ref t' n' ∧
      (T ++ s.takes events) ++ s'.w.queue.pending = s'.enqueued := by
  intro events
  induction events with
  | nil =>
    intro s t n T h hT
    exact ⟨s, t, n, rfl, h, by simpa [System.takes] using hT⟩
  | cons e events ih =>
    intro s t n T h hT
    obtain ⟨s1, t1, n1, hs, h1⟩ := System.step_inv h e
    obtain ⟨s2, t2, n2, hr, h2, hl⟩ :=
      ih s1 t1 n1 (T ++ s.taken e) h1 (System.step_ledger h e hs T hT)
    refine ⟨s2, t2, n2, by simp only [System.run, hs, hr], h2, ?_⟩
    simp only [System.takes, hs]
    rw [← hl]
    simp

/-- On a system at rest with an empty queue the iterations of the worker wait. -/
theorem System.Quiet_waits {ref : Writer} {s : System} {t : Nat} (h : s.Quiet ref t 0) :
    ∀ m : Nat, s.run (List.replicate m [Event.take, Event.forward]).flatten = some s := by
  have hgate : ¬ (s.launched = 0 ∨ s.worker.isSome = true) := by
    simp [h.launched, h.worker]
  have h0 : s.w.queue.count = 0 := by rw [h.inv.ring.count_eq]; rfl
  have h1 : s.run [Event.take, Event.forward] = some s := by
    simp [System.run, System.step, hgate, blockingQueue.Take, h0, h.worker]
  intro m
  induction m with
  | zero => rfl
  | succ m ih =>
    rw [List.replicate_succ, List.flatten_cons, System.run_events_append, h1]
    exact ih

/-- The iterations of the worker of the system are the iterations of `startWorker`: on a
system at rest, more iterations than there are queued payloads end where the loop of
`startWorker` ends, waiting on the empty queue, after every queued payload has been taken
and delivered once, oldest first. -/
theorem System.worker_drains {ref : Writer} : ∀ (m : Nat) (s : System) (t n : Nat),
    s.Quiet ref t n → n < m →
    ∃ s' t', s.run (List.replicate m [Event.take, Event.forward]).flatten = some s' ∧
      s'.Quiet ref t' 0 ∧ s'.enqueued = s.enqueued ∧
      s.w.startWorker m
        = some (s'.w, (s.w.queue.pending.map (asyncWriter.deliver ref)).flatten, true) ∧
      s'.effects = s.effects ++ (s.w.queue.pending.map (asyncWriter.deliver ref)).flatten := by
  intro m
  induction m with
  | zero =>
    intro s t n _ hn
    omega
  | succ m ih =>
    intro s t n h hn
    have hgate : ¬ (s.launched = 0 ∨ s.worker.isSome = true) := by
      simp [h.launched, h.worker]
    cases n with
    | zero =>
      have h0 : s.w.queue.count = 0 := by rw [h.inv.ring.count_eq]; rfl
      have hp : s.w.queue.pending = [] := by
        rw [pending_eq h.inv.ring]
        rfl
      refine ⟨s, t, System.Quiet_waits h (m + 1), h, rfl, ?_, ?_⟩
      · simp [asyncWriter.startWorker, blockingQueue.Take, h0, hp]
      · simp [hp]
    | succ n =>
      obtain ⟨data, hdata, htake, hring⟩ := Ring_take h.inv.ring
      have hpend := pending_take h.inv.ring hring (by have := h.inv.bound; omega) data
        hdata rfl
      have hq : (({ s with
            w := { s.w with queue :=
              { items := s.w.queue.items.set t [], count := (n : Int),
                takeIndex := (((t + 1) % 256 : Nat) : Int),
                putIndex := s.w.queue.putIndex } },
            worker := none,
            effects := s.effects ++ asyncWriter.deliver s.w.ref data } : System).Quiet ref
          ((t + 1) % 256) n) := by
        refine ⟨⟨hring, ?_, ?_, h.inv.ref_eq, ?_⟩, h.producer, rfl, h.launched⟩
        · have := h.inv.bound
          omega
        · intro hp
          simp [h.producer] at hp
        · intro hF hE
          have ho := h.inv.order hF hE
          rw [h.worker, hpend] at ho
          simp only
          rw [← ho, forwarded_append, h.inv.ref_eq, forwarded_deliver ref hF hE]
          simp
      obtain ⟨s', t', hr', hq', he', hw', hf'⟩ := ih _ ((t + 1) % 256) n hq (by omega)
      refine ⟨s', t', ?_, hq', he', ?_, ?_⟩
      · rw [List.replicate_succ, List.flatten_cons, System.run_events_append]
        have h1 : s.run [Event.take, Event.forward] = some { s with
            w := { s.w with queue :=
              { items := s.w.queue.items.set t [], count := (n : Int),
                takeIndex := (((t + 1) % 256 : Nat) : Int),
                putIndex := s.w.queue.putIndex } },
            worker := none,
            effects := s.effects ++ asyncWriter.deliver s.w.ref data } := by
          simp only [System.run, System.step, if_neg hgate, htake]
        rw [h1]
        exact hr'
      · simp only [asyncWriter.startWorker, htake]
        simp only at hw'
        rw [hw', hpend, h.inv.ref_eq]
        simp
      · rw [hf', hpend, h.inv.ref_eq]
        simp

/-- C21.  Producers and one consumer, for every downstream writer.  After any interleaving
of the `Write` calls of the producers (each a test and a `Put`, one at a time under the
writer lock) with the steps of the worker: the payloads `Take` has returned, followed by the
queued ones, are the payloads handed to `Put`, each once and in order, and `count` is the
number handed to `Put` less the number returned by `Take`; below the overflow threshold
`Write(p)` returns `(len(p), nil)` with `p` queued last and `count` one more, and that is
what the two steps of the producer do.  Once the `Write` in progress has ended and the
worker is at the top of its loop, the loop of `startWorker` takes and delivers every queued
payload once, oldest first, and waits on the empty queue; the steps of the worker end in
the same writer with the same calls made; then `count` is 0, and the payloads returned by
`Take` along the whole interleaving are exactly the payloads handed to `Put`, in order.
With neither filter nor encoder downstream, the payloads forwarded are those as well. -/
theorem producers_and_consumer (ref : Writer) (events : List Event) :
    ∃ s s3 s',
      (System.init ref).run events = some s ∧
      (System.init ref).takes events ++ s.w.queue.pending = s.enqueued ∧
      s.w.queue.count
        = (s.enqueued.length : Int) - (((System.init ref).takes events).length : Int) ∧
      (∀ p, s.producer = none → 16 < s.w.queue.RemainCapacity →
        ∃ w' s2, s.w.Write p = some (((p.length : Int), none), w') ∧
          w'.queue.pending = s.w.queue.pending ++ [p] ∧
          w'.queue.count = s.w.queue.count + 1 ∧
          s.run [Event.enter p, Event.put] = some s2 ∧ s2.w = w' ∧
          s2.enqueued = s.enqueued ++ [p]) ∧
      s.run [Event.start, Event.put, Event.forward] = some s3 ∧
      s3.producer = none ∧ s3.worker = none ∧
      s3.enqueued = s.enqueued ++ s.producer.toList ∧
      s3.w.startWorker 241
        = some (s'.w, (s3.w.queue.pending.map (asyncWriter.deliver ref)).flatten, true) ∧
      s3.run (List.replicate 241 [Event.take, Event.forward]).flatten = some s' ∧
      s'.effects = s3.effects ++ (s3.w.queue.pending.map (asyncWriter.deliver ref)).flatten ∧
      (System.init ref).run (events ++ System.drain) = some s' ∧
      s'.w.queue.count = 0 ∧ s'.worker = none ∧ s'.producer = none ∧
      s'.enqueued = s3.enqueued ∧
      (System.init ref).takes (events ++ System.drain) = s'.enqueued ∧
      (ref.Filter = none → ref.Encoder = none → forwarded s'.effects = s'.enqueued) := by
  have hstart : ([] : List Bytes) ++ (System.init ref).w.queue.pending
      = (System.init ref).enqueued := by
    simp [System.init, NewAsyncWriter, pending_new]
  obtain ⟨s, t, n, hr, hinv, hled⟩ :=
    System.run_ledger events _ 0 0 [] (System.Inv_init ref) hstart
  have hl : s.launchedOnce :=
    System.run_launchedOnce events _ s (by simp [System.launchedOnce, System.init,
      NewAsyncWriter]) hr
  obtain ⟨s3, t3, n3, hr3, hq3, he3⟩ := System.drain_start hinv hl
  obtain ⟨s', t', hr', hq', he', hw', hf'⟩ :=
    System.worker_drains 241 s3 t3 n3 hq3 (by have := hq3.inv.bound; omega)
  have hrun : (System.init ref).run (events ++ System.drain) = some s' := by
    rw [System.run_events_append, hr]
    simp only [System.drain]
    rw [System.run_events_append, hr3]
    exact hr'
  obtain ⟨s4, t4, n4, hr4, _, hled4⟩ :=
    System.run_ledger (events ++ System.drain) _ 0 0 [] (System.Inv_init ref) hstart
  rw [hrun, Option.some.injEq] at hr4
  subst hr4
  have hpend : s.w.queue.pending.length = n := by
    rw [pending_eq hinv.ring]
    simp
  have hpend' : s'.w.queue.pending = [] := by
    rw [pending_eq hq'.inv.ring]
    simp
  simp only [List.nil_append] at hled hled4
  refine ⟨s, s3, s', hr, hled, ?_, ?_, hr3, hq3.producer, hq3.worker, he3, hw', hr', hf',
    hrun, ?_, hq'.worker, hq'.producer, he', ?_, ?_⟩
  · have ho := congrArg List.length hled
    simp only [List.length_append] at ho
    rw [hinv.ring.count_eq]
    omega
  · intro p hp hcap
    have hlt : n < 240 := by
      unfold blockingQueue.RemainCapacity at hcap
      rw [hinv.ring.count_eq, hinv.ring.len] at hcap
      omega
    obtain ⟨buf, hbuf, hput, hring⟩ := Ring_put hinv.ring p
    have hb : buf = [] := by
      have := Ring_put_free hinv.ring (by omega : n < 256)
      rw [hbuf] at this
      exact Option.some.inj this
    subst hb
    simp only [List.nil_append] at hput hring
    refine ⟨{ s.w with queue :=
          { items := s.w.queue.items.set ((t + n) % 256) p, count := (n : Int) + 1,
            takeIndex := (t : Int), putIndex := (((t + (n + 1)) % 256 : Nat) : Int) } },
      { s with
        w := { s.w with queue :=
          { items := s.w.queue.items.set ((t + n) % 256) p, count := (n : Int) + 1,
            takeIndex := (t : Int), putIndex := (((t + (n + 1)) % 256 : Nat) : Int) } },
        producer := none, enqueued := s.enqueued ++ [p] }, ?_, ?_, ?_, ?_, rfl, rfl⟩
    · simp only [asyncWriter.Write, if_neg (by omega : ¬ s.w.queue.RemainCapacity ≤ 16), hput]
    · exact pending_put hinv.ring hring (by omega) p rfl
    · simp only [hinv.ring.count_eq]
    · simp only [System.run, System.step, hp,
        if_neg (by omega : ¬ s.w.queue.RemainCapacity ≤ 16), hput]
  · rw [hq'.inv.ring.count_eq]
    rfl
  · rw [hpend'] at hled4
    simpa using hled4
  · intro hF hE
    have ho := hq'.inv.order hF hE
    rw [hq'.worker, hpend'] at ho
    simpa using ho

set_option maxRecDepth 100000 in
/-- Witness of C21: two producers with two payloads each, interleaved with the worker, in
front of a downstream writer with a filter and an encoder; a fifth payload written
afterwards is queued last. -/
theorem producers_and_consumer_witness :
    ((System.init picky).run ([Event.start, Event.enter [1], Event.enter [0], Event.put,
        Event.take, Event.enter [0], Event.put, Event.enter [9], Event.forward, Event.put,
        Event.enter [4], Event.put] ++ System.drain)).map
      (fun s => (s.w.queue.count, s.enqueued))
      = some (0, [[1], [0], [9], [4]]) ∧
    (System.init picky).takes ([Event.start, Event.enter [1], Event.enter [0], Event.put,
        Event.take, Event.enter [0], Event.put, Event.enter [9], Event.forward, Event.put,
        Event.enter [4], Event.put] ++ System.drain) = [[1], [0], [9], [4]] ∧
    ∃ s w' s2, (System.init picky).run [Event.start, Event.enter [1], Event.enter [0],
        Event.put, Event.take, Event.enter [0], Event.put, Event.enter [9], Event.forward,
        Event.put, Event.enter [4], Event.put] = some s ∧
      s.producer = none ∧ 16 < s.w.queue.RemainCapacity ∧
      s.w.queue.pending = [[0], [9], [4]] ∧
      s.w.Write [5] = some ((1, none), w') ∧
      w'.queue.pending = s.w.queue.pending ++ [[5]] ∧
      w'.queue.count = s.w.queue.count + 1 ∧
      s.run [Event.enter [5], Event.put] = some s2 ∧ s2.w = w' ∧
      s2.enqueued = s.enqueued ++ [[5]] := by
  refine ⟨by decide, by decide, ?_⟩
  obtain ⟨s, _, _, hr, _, _, hwrite, _⟩ :=
    producers_and_consumer picky [Event.start, Event.enter [1], Event.enter [0],
      Event.put, Event.take, Event.enter [0], Event.put, Event.enter [9], Event.forward,
      Event.put, Event.enter [4], Event.put]
  have hfacts : ((System.init picky).run [Event.start, Event.enter [1], Event.enter [0],
      Event.put, Event.take, Event.enter [0], Event.put, Event.enter [9], Event.forward,
      Event.put, Event.enter [4], Event.put]).map
        (fun s => (s.producer, decide (16 < s.w.queue.RemainCapacity), s.w.queue.pending))
      = some (none, true, [[0], [9], [4]]) := by
    decide
  rw [hr] at hfacts
  simp only [Option.map_some', Option.some.injEq, Prod.mk.injEq, decide_eq_true_eq] at hfacts
  obtain ⟨w', s2, h1, h2, h3, h4, h5, h6⟩ := hwrite [5] hfacts.1 hfacts.2.1
  exact ⟨s, w', s2, hr, hfacts.1, hfacts.2.1, hfacts.2.2, h1, h2, h3, h4, h5, h6⟩

end Slago
